import Mathlib

set_option maxRecDepth 10000
set_option maxHeartbeats 1000000

/-!
Verification of the cusp sparse-matrix runtime specification against the
sources in `src/`.

Code under `src/` (authoritative where present):
* `src/cusp/krylov/bicgstab.h` — the BiCGstab solver, embedded below over ℚ
  (exact arithmetic stand-in for the C++ `ValueType`).
* `src/cusp/coo_matrix.h` — the COO container declarations and documented
  constructor semantics.
* `src/performance/benchmark.h` — callers of `cusp::convert` showing that
  ELL/DIA conversions report `format_conversion_exception`.

The format containers' semantics, the format conversions, the SpMV kernels
and the default stopping criterion are not under `src/`; those definitions
are modelled from the specification (`spec.md`) and are marked
`Modelled from the spec:` in their doc comments.

Sparse-matrix values are taken in an arbitrary commutative ring `α`
(the C++ `ValueType`); the solver layer instantiates `α := ℚ`.
-/

/-- A stored sparse-matrix entry: `(row, (column, value))`. -/
abbrev Triple (α : Type) := ℕ × ℕ × α

/-- Sum of the values of the entries of `L` stored at position `(i, j)`.
A format represents the matrix whose `(i,j)` coefficient is this sum of its
stored contributions (formats without duplicates store at most one). -/
def entryList {α : Type} [CommRing α] (L : List (Triple α)) (i j : ℕ) : α :=
  ((L.filter (fun t => t.1 = i && t.2.1 = j)).map (fun t => t.2.2)).sum

/-- All stored positions lie inside the `rows × cols` shape. -/
def boundedTriples {α : Type} (rows cols : ℕ) (L : List (Triple α)) : Prop :=
  ∀ t ∈ L, t.1 < rows ∧ t.2.1 < cols

instance {α : Type} (rows cols : ℕ) (L : List (Triple α)) :
    Decidable (boundedTriples rows cols L) := by
  unfold boundedTriples
  infer_instance

/-- COO (coordinate) format, from `src/cusp/coo_matrix.h`: shape fields from
`detail::matrix_base`, parallel arrays `row_indices`, `column_indices`,
`values` of length `num_entries`. -/
structure COOMatrix (α : Type) where
  num_rows : ℕ
  num_cols : ℕ
  num_entries : ℕ
  row_indices : List ℕ
  column_indices : List ℕ
  values : List α
deriving DecidableEq

/-- The stored entries of a COO matrix, in storage order. -/
def COOMatrix.triples {α : Type} (m : COOMatrix α) : List (Triple α) :=
  m.row_indices.zip (m.column_indices.zip m.values)

/-- Modelled from the spec: CSR format — `row_offsets[num_rows+1]`,
`column_indices[num_entries]`, `values[num_entries]` (the CSR container
itself is not under `src/`). -/
structure CSRMatrix (α : Type) where
  num_rows : ℕ
  num_cols : ℕ
  num_entries : ℕ
  row_offsets : List ℕ
  column_indices : List ℕ
  values : List α
deriving DecidableEq

/-- The stored entries of row `i` of a CSR matrix: positions
`row_offsets[i] ≤ k < row_offsets[i+1]` of the column/value arrays. -/
def CSRMatrix.rowTriples {α : Type} (m : CSRMatrix α) (i : ℕ) : List (Triple α) :=
  (((m.column_indices.zip m.values).drop (m.row_offsets.getD i 0)).take
      (m.row_offsets.getD (i + 1) 0 - m.row_offsets.getD i 0)).map
    (fun p => (i, p.1, p.2))

/-- The stored entries of a CSR matrix, row-major. -/
def CSRMatrix.triples {α : Type} (m : CSRMatrix α) : List (Triple α) :=
  (List.range m.num_rows).flatMap m.rowTriples

/-- Modelled from the spec: ELL format — a fixed maximum of
`num_entries_per_row` slots per row, arrays `column_indices[stride × E]` and
`values[stride × E]` column-major, sentinel column `-1` for padding
(the ELL container itself is not under `src/`). -/
structure ELLMatrix (α : Type) where
  num_rows : ℕ
  num_cols : ℕ
  num_entries : ℕ
  num_entries_per_row : ℕ
  stride : ℕ
  column_indices : List ℤ
  values : List α
deriving DecidableEq

/-- The stored entries of an ELL matrix: slot `s` of row `i` lives at
position `s * stride + i`; a sentinel (negative) column marks padding. -/
def ELLMatrix.triples {α : Type} [CommRing α] (m : ELLMatrix α) : List (Triple α) :=
  (List.range m.num_rows).flatMap (fun i =>
    (List.range m.num_entries_per_row).flatMap (fun s =>
      if 0 ≤ m.column_indices.getD (s * m.stride + i) (-1) then
        [(i, (m.column_indices.getD (s * m.stride + i) (-1)).toNat,
          m.values.getD (s * m.stride + i) 0)]
      else []))

/-- Modelled from the spec: DIA format — `diagonal_offsets[D]` (signed) and a
dense `values` matrix of shape `stride × D`, column-major; off-matrix padding
positions carry an explicit zero and are ignored
(the DIA container itself is not under `src/`). -/
structure DIAMatrix (α : Type) where
  num_rows : ℕ
  num_cols : ℕ
  num_entries : ℕ
  stride : ℕ
  diagonal_offsets : List ℤ
  values : List α
deriving DecidableEq

/-- The stored entries of a DIA matrix: diagonal `k` meets row `i` at column
`i + diagonal_offsets[k]` when that column is inside the matrix. -/
def DIAMatrix.triples {α : Type} [CommRing α] (m : DIAMatrix α) : List (Triple α) :=
  (List.range m.diagonal_offsets.length).flatMap (fun k =>
    (List.range m.num_rows).flatMap (fun i =>
      if 0 ≤ (i : ℤ) + m.diagonal_offsets.getD k 0 ∧
          (i : ℤ) + m.diagonal_offsets.getD k 0 < (m.num_cols : ℤ) then
        [(i, ((i : ℤ) + m.diagonal_offsets.getD k 0).toNat,
          m.values.getD (k * m.stride + i) 0)]
      else []))

/-- Modelled from the spec: HYB format — an ELL portion holding the first `E`
nonzeros of every row and a COO portion holding the overflow
(the HYB container itself is not under `src/`). -/
structure HYBMatrix (α : Type) where
  ell : ELLMatrix α
  coo : COOMatrix α
deriving DecidableEq

/-- The stored entries of a HYB matrix: ELL part then COO part. -/
def HYBMatrix.triples {α : Type} [CommRing α] (m : HYBMatrix α) : List (Triple α) :=
  m.ell.triples ++ m.coo.triples

/-- Build a COO container holding exactly the triples `L` (used by the
conversions from the other formats back to the COO hub). -/
def cooOfTriples {α : Type} (rows cols : ℕ) (L : List (Triple α)) : COOMatrix α :=
  { num_rows := rows, num_cols := cols, num_entries := L.length,
    row_indices := L.map (fun t => t.1),
    column_indices := L.map (fun t => t.2.1),
    values := L.map (fun t => t.2.2) }

/-- The stored entries of `L` that belong to row `i`, in storage order. -/
def rowEntries {α : Type} (L : List (Triple α)) (i : ℕ) : List (Triple α) :=
  L.filter (fun t => t.1 = i)

/-- Modelled from the spec: COO → CSR conversion (`cusp::convert` is not under
`src/`) — "by prefix-summing row counts": `row_offsets` are the prefix sums of
the per-row entry counts, and the column/value arrays are the entries grouped
by row (for the sorted COO input the spec guarantees, the grouping is the
identity on the storage order). -/
def coo_to_csr {α : Type} (c : COOMatrix α) : CSRMatrix α :=
  let counts : List ℕ :=
    (List.range c.num_rows).map (fun i => (rowEntries c.triples i).length)
  { num_rows := c.num_rows, num_cols := c.num_cols, num_entries := c.num_entries,
    row_offsets := (List.range (c.num_rows + 1)).map (fun i => (counts.take i).sum),
    column_indices :=
      (List.range c.num_rows).flatMap (fun i => (rowEntries c.triples i).map (fun t => t.2.1)),
    values :=
      (List.range c.num_rows).flatMap (fun i => (rowEntries c.triples i).map (fun t => t.2.2)) }

/-- Modelled from the spec: CSR → COO conversion, trivially `O(nnz)`:
expand the row offsets back into explicit row indices. -/
def csr_to_coo {α : Type} (m : CSRMatrix α) : COOMatrix α :=
  cooOfTriples m.num_rows m.num_cols m.triples

/-- Build an ELL container with `E` slots per row, `stride = num_rows`,
column-major arrays; slot `s` of row `i` holds the `s`-th entry of that row,
or the sentinel column `-1` with value `0` when the row has fewer entries. -/
def ellOfRows {α : Type} [CommRing α] (rows cols nnz E : ℕ)
    (row : ℕ → List (Triple α)) : ELLMatrix α :=
  { num_rows := rows, num_cols := cols, num_entries := nnz,
    num_entries_per_row := E, stride := rows,
    column_indices := (List.range (E * rows)).map (fun idx =>
      match (row (idx % rows)).get? (idx / rows) with
      | some t => (t.2.1 : ℤ)
      | none => -1),
    values := (List.range (E * rows)).map (fun idx =>
      match (row (idx % rows)).get? (idx / rows) with
      | some t => t.2.2
      | none => 0) }

/-- Maximum number of stored entries in any row of a COO matrix. -/
def maxRowLength {α : Type} (c : COOMatrix α) : ℕ :=
  ((List.range c.num_rows).map (fun i => (rowEntries c.triples i).length)).foldr max 0

/-- Modelled from the spec: COO → ELL conversion — scan the nonzeros for the
maximum row length `E`; fail with `FormatConversionError` (here `none`) when
the maximum row length exceeds `θ` times the average row length
`num_entries / num_rows` (stated cross-multiplied:
`max * num_rows > θ * num_entries`); `θ` is the implementation-chosen
tunable, `3` at the call sites below. -/
def coo_to_ell {α : Type} [CommRing α] (θ : ℕ) (c : COOMatrix α) :
    Option (ELLMatrix α) :=
  if maxRowLength c * c.num_rows > θ * c.num_entries then none
  else some (ellOfRows c.num_rows c.num_cols c.num_entries (maxRowLength c)
    (rowEntries c.triples))

/-- Modelled from the spec: ELL → COO conversion via the stored slots,
skipping sentinel padding. -/
def ell_to_coo {α : Type} [CommRing α] (m : ELLMatrix α) : COOMatrix α :=
  cooOfTriples m.num_rows m.num_cols m.triples

/-- The set of occupied diagonals `column - row` of a COO matrix,
sorted and without duplicates. -/
def occupiedDiagonals {α : Type} (c : COOMatrix α) : List ℤ :=
  ((c.triples.map (fun t => (t.2.1 : ℤ) - (t.1 : ℤ))).insertionSort (· ≤ ·)).dedup

/-- Modelled from the spec: COO → DIA conversion — scan the nonzeros for the
occupied diagonals; fail with `FormatConversionError` (here `none`) when the
number `D` of distinct diagonals exceeds the implementation-chosen threshold
relative to `num_rows + num_cols` (`θ * D > num_rows + num_cols`, `θ = 2` at
the call sites below). In-matrix positions of an occupied diagonal store the
matrix coefficient there (zero where no entry exists); off-matrix padding
stores an explicit zero. -/
def coo_to_dia {α : Type} [CommRing α] (θ : ℕ) (c : COOMatrix α) :
    Option (DIAMatrix α) :=
  if θ * (occupiedDiagonals c).length > c.num_rows + c.num_cols then none
  else
    some { num_rows := c.num_rows, num_cols := c.num_cols,
           num_entries := c.num_entries, stride := c.num_rows,
           diagonal_offsets := occupiedDiagonals c,
           values := (List.range ((occupiedDiagonals c).length * c.num_rows)).map
             (fun idx =>
               if 0 ≤ ((idx % c.num_rows : ℕ) : ℤ) +
                     (occupiedDiagonals c).getD (idx / c.num_rows) 0 ∧
                   ((idx % c.num_rows : ℕ) : ℤ) +
                     (occupiedDiagonals c).getD (idx / c.num_rows) 0 <
                     (c.num_cols : ℤ) then
                 entryList c.triples (idx % c.num_rows)
                   (((idx % c.num_rows : ℕ) : ℤ) +
                     (occupiedDiagonals c).getD (idx / c.num_rows) 0).toNat
               else 0) }

/-- Modelled from the spec: DIA → COO conversion via the stored diagonals,
keeping every in-matrix stored position. -/
def dia_to_coo {α : Type} [CommRing α] (m : DIAMatrix α) : COOMatrix α :=
  cooOfTriples m.num_rows m.num_cols m.triples

/-- Modelled from the spec: COO → HYB conversion — choose `E` as the typical
(average) row length; the first `E` entries of every row go to the ELL
portion, the remainder to the COO tail, ordered by row. -/
def coo_to_hyb {α : Type} [CommRing α] (c : COOMatrix α) : HYBMatrix α :=
  let E := c.num_entries / c.num_rows
  { ell := ellOfRows c.num_rows c.num_cols c.num_entries E (rowEntries c.triples),
    coo := cooOfTriples c.num_rows c.num_cols
      ((List.range c.num_rows).flatMap (fun i => (rowEntries c.triples i).drop E)) }

/-- Modelled from the spec: HYB → COO conversion — the ELL entries followed by
the COO tail. -/
def hyb_to_coo {α : Type} [CommRing α] (m : HYBMatrix α) : COOMatrix α :=
  cooOfTriples m.ell.num_rows m.ell.num_cols m.triples

/-- The five supported sparse formats. -/
inductive Fmt where
  | coo | csr | ell | dia | hyb
deriving DecidableEq

/-- A sparse matrix in any of the five supported formats. -/
inductive AnyMat (α : Type) where
  | coo (m : COOMatrix α)
  | csr (m : CSRMatrix α)
  | ell (m : ELLMatrix α)
  | dia (m : DIAMatrix α)
  | hyb (m : HYBMatrix α)
deriving DecidableEq

/-- The format tag of a matrix. -/
def AnyMat.fmt {α : Type} : AnyMat α → Fmt
  | .coo _ => .coo
  | .csr _ => .csr
  | .ell _ => .ell
  | .dia _ => .dia
  | .hyb _ => .hyb

/-- The stored entries of a matrix in any format. -/
def AnyMat.triples {α : Type} [CommRing α] : AnyMat α → List (Triple α)
  | .coo m => m.triples
  | .csr m => m.triples
  | .ell m => m.triples
  | .dia m => m.triples
  | .hyb m => m.triples

/-- Number of rows of a matrix in any format (the shape of a HYB matrix is
the shape of its ELL portion). -/
def AnyMat.num_rows {α : Type} : AnyMat α → ℕ
  | .coo m => m.num_rows
  | .csr m => m.num_rows
  | .ell m => m.num_rows
  | .dia m => m.num_rows
  | .hyb m => m.ell.num_rows

/-- Number of columns of a matrix in any format. -/
def AnyMat.num_cols {α : Type} : AnyMat α → ℕ
  | .coo m => m.num_cols
  | .csr m => m.num_cols
  | .ell m => m.num_cols
  | .dia m => m.num_cols
  | .hyb m => m.ell.num_cols

/-- The matrix coefficient represented at position `(i, j)`. -/
def AnyMat.entry {α : Type} [CommRing α] (m : AnyMat α) (i j : ℕ) : α :=
  entryList m.triples i j

/-- Well-formedness: every stored position is inside the shape. -/
def AnyMat.WF {α : Type} [CommRing α] (m : AnyMat α) : Prop :=
  boundedTriples m.num_rows m.num_cols m.triples

instance {α : Type} [CommRing α] (m : AnyMat α) : Decidable m.WF := by
  unfold AnyMat.WF
  infer_instance

/-- Conversion of a matrix in any format to the COO hub format. -/
def toCOO {α : Type} [CommRing α] : AnyMat α → COOMatrix α
  | .coo m => m
  | .csr m => csr_to_coo m
  | .ell m => ell_to_coo m
  | .dia m => dia_to_coo m
  | .hyb m => hyb_to_coo m

/-- Conversion of the COO hub to the destination format; `none` models a
thrown `FormatConversionError`. `θe`/`θd` are the ELL/DIA tunables. -/
def fromCOO {α : Type} [CommRing α] (θe θd : ℕ) :
    Fmt → COOMatrix α → Option (AnyMat α)
  | .coo, c => some (.coo c)
  | .csr, c => some (.csr (coo_to_csr c))
  | .ell, c => (coo_to_ell θe c).map .ell
  | .dia, c => (coo_to_dia θd c).map .dia
  | .hyb, c => some (.hyb (coo_to_hyb c))

/-- Modelled from the spec: `convert(dst, src)` — hub-and-spoke through the
COO format; a `none` result models a thrown `FormatConversionError`. -/
def convert {α : Type} [CommRing α] (θe θd : ℕ) (dst : Fmt) (src : AnyMat α) :
    Option (AnyMat α) :=
  fromCOO θe θd dst (toCOO src)

/-- Modelled from the spec: the COO flat SpMV kernel — `spmv(A, x, y)`
computes `y ← A · x`, fully overwriting `y`: each stored entry contributes
`values[k] · x[column_indices[k]]` to `y[row_indices[k]]`. The `y` argument
mirrors the C++ in-out parameter; per the contract the result does not
depend on it. -/
def spmv_coo {α : Type} [CommRing α] (A : COOMatrix α) (x y : List α) : List α :=
  (List.range A.num_rows).map (fun i =>
    (A.triples.map (fun t => if t.1 = i then t.2.2 * x.getD t.2.1 0 else 0)).sum)

/-- Modelled from the spec: the CSR scalar SpMV kernel — for each row `i`,
iterate the entries at `row_offsets[i] .. row_offsets[i+1]`, overwriting
`y[i]` with the row's sum. -/
def spmv_csr {α : Type} [CommRing α] (A : CSRMatrix α) (x y : List α) : List α :=
  (List.range A.num_rows).map (fun i =>
    ((A.rowTriples i).map (fun t => t.2.2 * x.getD t.2.1 0)).sum)

/-- Modelled from the spec: the ELL SpMV kernel — for each row `i` and slot
`s`, skip the sentinel column, else accumulate
`values[s·stride+i] · x[column_indices[s·stride+i]]` into `y[i]`. -/
def spmv_ell {α : Type} [CommRing α] (A : ELLMatrix α) (x y : List α) : List α :=
  (List.range A.num_rows).map (fun i =>
    ((List.range A.num_entries_per_row).map (fun s =>
      let c := A.column_indices.getD (s * A.stride + i) (-1)
      if 0 ≤ c then A.values.getD (s * A.stride + i) 0 * x.getD c.toNat 0
      else 0)).sum)

/-- Modelled from the spec: the accumulating COO kernel used as the second
phase of the HYB SpMV — reads `y` and adds each entry's contribution. -/
def spmv_coo_into {α : Type} [CommRing α] (A : COOMatrix α) (x y : List α) :
    List α :=
  (List.range A.num_rows).map (fun i =>
    y.getD i 0 +
      (A.triples.map (fun t => if t.1 = i then t.2.2 * x.getD t.2.1 0 else 0)).sum)

/-- Modelled from the spec: the HYB SpMV kernel — SpMV of the ELL portion
(overwriting `y`) followed by the accumulating COO portion. -/
def spmv_hyb {α : Type} [CommRing α] (A : HYBMatrix α) (x y : List α) : List α :=
  spmv_coo_into A.coo x (spmv_ell A.ell x y)

/-- The mathematical matrix–vector product `A · x` of the matrix represented
by a COO container: `(A·x)[i] = Σ_j A[i,j] · x[j]`. -/
def cooMatVec {α : Type} [CommRing α] (A : COOMatrix α) (x : List α) : List α :=
  (List.range A.num_rows).map (fun i =>
    ((List.range A.num_cols).map (fun j => entryList A.triples i j * x.getD j 0)).sum)

/-- BLAS-1 `fill(v, a)` from the assumed dense façade: overwrite every
element of `v` with `a`. -/
def blas_fill (v : List ℚ) (a : ℚ) : List ℚ := v.map (fun _ => a)

/-- BLAS-1 `copy(src, dst)`: `dst` becomes `src`. -/
def blas_copy (v : List ℚ) : List ℚ := v

/-- BLAS-1 `axpby(x, y, z, a, b)`: `z ← a·x + b·y`. -/
def blas_axpby (x y : List ℚ) (a b : ℚ) : List ℚ :=
  List.zipWith (fun xi yi => a * xi + b * yi) x y

/-- BLAS-1 `axpbypcz(x, y, z, w, a, b, c)`: `w ← a·x + b·y + c·z`. -/
def blas_axpbypcz (x y z : List ℚ) (a b c : ℚ) : List ℚ :=
  List.zipWith3 (fun xi yi zi => a * xi + b * yi + c * zi) x y z

/-- BLAS-1 `dotc(x, y) = Σ conj(x_i)·y_i`; conjugation is the identity on the
rational stand-in for the C++ scalar type. -/
def blas_dotc (x y : List ℚ) : ℚ := (List.zipWith (fun a b => a * b) x y).sum

/-- The square ‖v‖₂² of BLAS-1 `nrm2`. The solver uses `r_norm = nrm2(r)`
only through the monotone comparison `‖r‖ < τ·‖b‖` inside the stopping
criterion, so the embedding tracks the square throughout
(`a < b ↔ a² < b²` for nonnegative `a`, `b`). -/
def blas_nrm2sq (v : List ℚ) : ℚ := (v.map (fun a => a * a)).sum

/-- The `LinearOperator` template argument of `bicgstab`: a shape and an
SpMV capability `spmv(A, x, y)`. -/
structure LinearOperator where
  num_rows : ℕ
  num_cols : ℕ
  spmv : List ℚ → List ℚ → List ℚ

/-- The `StoppingCriteria` template argument of `bicgstab`, with the
interface the solver consumes: `init` models `initialize(A, x, b)` (returning
the updated criterion state), then `has_converged(A, x, b, ‖r‖²)` and
`has_reached_iteration_limit(iteration_number)`. The residual-norm argument
is squared, see `blas_nrm2sq`. -/
structure StoppingCriteria (σ : Type) where
  init : σ → LinearOperator → List ℚ → List ℚ → σ
  has_converged : σ → LinearOperator → List ℚ → List ℚ → ℚ → Bool
  has_reached_iteration_limit : σ → ℕ → Bool

/-- The two ways the `while (true)` loop of `bicgstab` breaks
(src/cusp/krylov/bicgstab.h lines 93–105): the stopping criterion converged,
or the iteration limit was reached. The code has no other exit. -/
inductive ExitStatus where
  | converged
  | iterationLimit
deriving DecidableEq

/-- The solver state: `x` and the workspace vectors allocated by `bicgstab`
(src/cusp/krylov/bicgstab.h lines 52–62), plus the loop scalars. -/
structure BState where
  x : List ℚ
  r : List ℚ
  p : List ℚ
  r_star : List ℚ
  s : List ℚ
  Mp : List ℚ
  AMp : List ℚ
  Ms : List ℚ
  AMs : List ℚ
  r_r_star_old : ℚ
  r_norm_sq : ℚ
deriving DecidableEq

/-- The observable result of a terminated `bicgstab` call. -/
structure BResult where
  state : BState
  iterations : ℕ
  status : ExitStatus
deriving DecidableEq

/-- Outcome of the embedded `bicgstab`: `assertionFailure` models the failed
`assert(A.num_rows == A.num_cols)`; `outOfFuel` is an artifact of embedding
the unbounded `while (true)` loop with fuel. -/
inductive BicgstabOutcome where
  | assertionFailure
  | outOfFuel
  | finished (res : BResult)
deriving DecidableEq

/-- One pass of the body of the `while (true)` loop of `bicgstab`
(src/cusp/krylov/bicgstab.h lines 107–146), line by line:
`Mp = M*p` (identity preconditioner, a copy); `AMp = A*Mp` after zeroing;
`alpha = r_r_star_old / dotc(r_star, AMp)`; `s = r - alpha*AMp`;
`Ms = M*s` (copy); `AMs = A*Ms` after zeroing;
`omega = dotc(AMs, s) / dotc(AMs, AMs)`;
`x += alpha*Mp + omega*Ms`; `r = s - omega*AMs`;
`beta = (r_r_star_new / r_r_star_old) * (alpha/omega)`;
`p = r + beta*(p - omega*AMp)`; `r_norm = nrm2(r)` (squared here).
No denominator is checked before dividing. The embedding's ℚ division
returns 0 on a zero denominator, where the source's floating-point division
yields non-finite values (spec design note 9a); the claims below about
breakdown therefore rest only on the exact vanishing of denominators and on
the loop's control flow, which agree across both semantics.
`bicgstab_iteration_eq` names the body's intermediate quantities. -/
def bicgstab_iteration (A : LinearOperator) (S : BState) : BState :=
  let Mp := blas_copy S.p
  let AMp := A.spmv Mp (blas_fill S.AMp 0)
  let alpha := S.r_r_star_old / blas_dotc S.r_star AMp
  let s := blas_axpby S.r AMp 1 (-alpha)
  let Ms := blas_copy s
  let AMs := A.spmv Ms (blas_fill S.AMs 0)
  let omega := blas_dotc AMs s / blas_dotc AMs AMs
  let x := blas_axpbypcz S.x Mp Ms 1 alpha omega
  let r := blas_axpby s AMs 1 (-omega)
  let r_r_star_new := blas_dotc S.r_star r
  let beta := (r_r_star_new / S.r_r_star_old) * (alpha / omega)
  let p := blas_axpbypcz r S.p AMp 1 beta (-(beta * omega))
  let r_norm_sq := blas_nrm2sq r
  { x := x, r := r, p := p, r_star := S.r_star, s := s, Mp := Mp, AMp := AMp,
    Ms := Ms, AMs := AMs, r_r_star_old := r_r_star_new, r_norm_sq := r_norm_sq }

/-- The `while (true)` loop of `bicgstab` (src/cusp/krylov/bicgstab.h lines
91–147): check convergence, check the iteration limit, else run one body pass
and increment `iteration_number`. `fuel` bounds the unbounded C++ loop. -/
def bicgstab_loop {σ : Type} (A : LinearOperator) (b : List ℚ)
    (sc : StoppingCriteria σ) (st : σ) :
    ℕ → ℕ → BState → BicgstabOutcome
  | 0, _, _ => .outOfFuel
  | fuel + 1, k, S =>
    if sc.has_converged st A S.x b S.r_norm_sq then .finished ⟨S, k, .converged⟩
    else if sc.has_reached_iteration_limit st k then
      .finished ⟨S, k, .iterationLimit⟩
    else bicgstab_loop A b sc st fuel (k + 1) (bicgstab_iteration A S)

/-- The `bicgstab` solver (src/cusp/krylov/bicgstab.h lines 35–149):
assert the operator is square, allocate the `N = num_rows`-sized workspace,
initialize the stopping criterion, form `r = b - A·x`, `p = r`, `r_star = r`,
the initial residual norm and `(r, r_star)`, then run the loop. -/
def bicgstab {σ : Type} (A : LinearOperator) (x b : List ℚ)
    (sc : StoppingCriteria σ) (st : σ) (fuel : ℕ) : BicgstabOutcome :=
  if A.num_rows = A.num_cols then
    let N := A.num_rows
    let y := List.replicate N (0 : ℚ)
    let p := List.replicate N (0 : ℚ)
    let r := List.replicate N (0 : ℚ)
    let r_star := List.replicate N (0 : ℚ)
    let s := List.replicate N (0 : ℚ)
    let Mp := List.replicate N (0 : ℚ)
    let AMp := List.replicate N (0 : ℚ)
    let Ms := List.replicate N (0 : ℚ)
    let AMs := List.replicate N (0 : ℚ)
    let st1 := sc.init st A x b
    let y := A.spmv x (blas_fill y 0)
    let r := blas_axpby b y 1 (-1)
    let p := blas_copy r
    let r_star := blas_copy r
    let r_norm_sq := blas_nrm2sq r
    let r_r_star_old := blas_dotc r_star r
    bicgstab_loop A b sc st1 fuel 0
      { x := x, r := r, p := p, r_star := r_star, s := s, Mp := Mp, AMp := AMp,
        Ms := Ms, AMs := AMs, r_r_star_old := r_r_star_old,
        r_norm_sq := r_norm_sq }
  else .assertionFailure

/-- The kinds of SpMV and BLAS-1 calls `bicgstab` makes. -/
inductive BlasCall where
  | fill | copy | spmv | dotc | nrm2 | axpby | axpbypcz
deriving DecidableEq

/-- The SpMV and BLAS-1 calls made by one pass of the body of the
`while (true)` loop of `bicgstab` (src/cusp/krylov/bicgstab.h lines
107–146), transcribed in program order: `copy(p, Mp)`; `fill(AMp, 0)`;
`spmv(A, Mp, AMp)`; `dotc(r_star, AMp)`; `axpby(r, AMp, s)`; `copy(s, Ms)`;
`fill(AMs, 0)`; `spmv(A, Ms, AMs)`; `dotc(AMs, s)`; `dotc(AMs, AMs)`;
`axpbypcz(x, Mp, Ms, x)`; `axpby(s, AMs, r)`; `dotc(r_star, r)`;
`axpbypcz(r, p, AMp, p)`; `nrm2(r)`. -/
def bicgstab_iteration_calls : List BlasCall :=
  [.copy, .fill, .spmv, .dotc, .axpby, .copy, .fill, .spmv, .dotc, .dotc,
   .axpbypcz, .axpby, .dotc, .axpbypcz, .nrm2]

/-- BLAS-1 reduction calls: dot products and norms. -/
def BlasCall.isReduction : BlasCall → Bool
  | .dotc => true
  | .nrm2 => true
  | _ => false

/-- Modelled from the spec: the state of `cusp::default_stopping_criteria`
(not under `src/`) — the relative-residual tolerance `τ`, the iteration
limit, and the baseline `‖b‖²` captured by `initialize` (squared, see
`blas_nrm2sq`). -/
structure DefaultCriterionState where
  tol : ℚ
  max_iterations : ℕ
  b_norm_sq : ℚ
deriving DecidableEq

/-- Modelled from the spec: the default stopping criterion — `initialize`
captures `‖b‖²`; `has_converged` tests the relative residual
`‖r‖/‖b‖ < τ` (in squared form `‖r‖² < τ²·‖b‖²`);
`has_reached_iteration_limit` tests `max_iterations ≤ iteration_number`. -/
def default_stopping_criteria : StoppingCriteria DefaultCriterionState :=
  { init := fun st _ _ b => { st with b_norm_sq := blas_nrm2sq b },
    has_converged := fun st _ _ _ rns => decide (rns < st.tol ^ 2 * st.b_norm_sq),
    has_reached_iteration_limit := fun st k => decide (st.max_iterations ≤ k) }

/-- The `n × n` identity matrix in (sorted) COO format: entries `(i, i, 1)`. -/
def cooIdentity (n : ℕ) : COOMatrix ℚ :=
  { num_rows := n, num_cols := n, num_entries := n,
    row_indices := List.range n, column_indices := List.range n,
    values := List.replicate n 1 }

/-- The identity matrix as a solver operator, with the COO flat SpMV
kernel. -/
def identityOperator (n : ℕ) : LinearOperator :=
  { num_rows := n, num_cols := n,
    spmv := fun x y => spmv_coo (cooIdentity n) x y }

/-- The 4 × 3, 6-nonzero example matrix
`[[10,0,20],[0,0,0],[0,0,30],[40,50,60]]` in sorted COO format, exactly as
constructed in the usage example of `src/cusp/coo_matrix.h`. -/
def exampleCOO : COOMatrix ℤ :=
  { num_rows := 4, num_cols := 3, num_entries := 6,
    row_indices := [0, 0, 2, 3, 3, 3],
    column_indices := [0, 2, 2, 0, 1, 2],
    values := [10, 20, 30, 40, 50, 60] }

/-- A pathological row-length COO matrix: row 0 holds 1000 nonzeros
(columns 0..999), rows 1..1000 hold one nonzero each (column 0). -/
def pathologicalCOO : COOMatrix ℤ :=
  { num_rows := 1001, num_cols := 1000, num_entries := 2000,
    row_indices := List.replicate 1000 0 ++ (List.range 1000).map (fun i => i + 1),
    column_indices := List.range 1000 ++ List.replicate 1000 0,
    values := List.replicate 2000 1 }

/-- The dense all-ones 4 × 4 matrix stored directly as a DIA container with
its 7 occupied diagonals (column-major `values`, off-matrix padding zero). -/
def denseDIA : DIAMatrix ℤ :=
  { num_rows := 4, num_cols := 4, num_entries := 16, stride := 4,
    diagonal_offsets := [-3, -2, -1, 0, 1, 2, 3],
    values := [0, 0, 0, 1, 0, 0, 1, 1, 0, 1, 1, 1, 1, 1, 1, 1,
               1, 1, 1, 0, 1, 1, 0, 0, 1, 0, 0, 0] }

/-- The 2 × 2 rotation matrix `[[0, 1], [-1, 0]]` in sorted COO format;
`(r, A·r) = 0` for every vector `r`, so the solver's alpha denominator
vanishes on the first iteration for any right-hand side. -/
def rotationCOO : COOMatrix ℚ :=
  { num_rows := 2, num_cols := 2, num_entries := 2,
    row_indices := [0, 1], column_indices := [1, 0], values := [1, -1] }

/-- The rotation matrix as a solver operator with the COO flat kernel. -/
def rotationOperator : LinearOperator :=
  { num_rows := 2, num_cols := 2,
    spmv := fun x y => spmv_coo rotationCOO x y }

/-- A 1 × 2 (non-square) operator, for exercising the solver's shape
assertion. -/
def nonsquareOperator : LinearOperator :=
  { num_rows := 1, num_cols := 2, spmv := fun _ y => y }

/-- Modelled from the spec and the documented usage in
`src/cusp/coo_matrix.h`: the shape-and-entry-count constructor
`coo_matrix(num_rows, num_cols, num_entries)` allocates the three parallel
arrays with `num_entries` value-initialized (zero) elements; the usage
example in the header assigns the actual entries only after construction
(`cusp/detail/coo_matrix.inl` is not under `src/`). -/
def coo_matrix_ctor_sized (α : Type) [CommRing α] (rows cols nnz : ℕ) :
    COOMatrix α :=
  { num_rows := rows, num_cols := cols, num_entries := nnz,
    row_indices := List.replicate nnz 0,
    column_indices := List.replicate nnz 0,
    values := List.replicate nnz 0 }

/-- The default constructor `coo_matrix()`: the empty matrix. -/
def coo_matrix_ctor_default (α : Type) [CommRing α] : COOMatrix α :=
  { num_rows := 0, num_cols := 0, num_entries := 0,
    row_indices := [], column_indices := [], values := [] }

/-- The `(row_indices[k], column_indices[k])` pairs are lexicographically
strictly increasing in `k`. -/
def COOMatrix.lexSorted {α : Type} (m : COOMatrix α) : Prop :=
  List.Pairwise (fun a b => a.1 < b.1 ∨ (a.1 = b.1 ∧ a.2 < b.2))
    (m.row_indices.zip m.column_indices)

instance {α : Type} (m : COOMatrix α) : Decidable m.lexSorted := by
  unfold COOMatrix.lexSorted; infer_instance

/-- Modelled from the spec: the DIA SpMV kernel — iterate the `D` diagonals;
for each diagonal `d = diagonal_offsets[k]` and each row `i` with
`0 ≤ i + d < num_cols`, accumulate `values[k·stride + i] · x[i + d]` into
`y[i]`; off-matrix positions are skipped (their zero padding is ignored). -/
def spmv_dia {α : Type} [CommRing α] (A : DIAMatrix α) (x y : List α) : List α :=
  (List.range A.num_rows).map (fun (i : ℕ) =>
    ((List.range A.diagonal_offsets.length).map (fun (k : ℕ) =>
      if 0 ≤ (i : ℤ) + A.diagonal_offsets.getD k 0 ∧
          (i : ℤ) + A.diagonal_offsets.getD k 0 < (A.num_cols : ℤ) then
        A.values.getD (k * A.stride + i) 0 *
          x.getD ((i : ℤ) + A.diagonal_offsets.getD k 0).toNat 0
      else 0)).sum)

/-- The stored entries of row `i` of an ELL matrix: the non-sentinel slots
of that row, in slot order (`ELLMatrix.triples` is their concatenation over
the rows). -/
def ELLMatrix.rowTriples {α : Type} [CommRing α] (m : ELLMatrix α) (i : ℕ) :
    List (Triple α) :=
  (List.range m.num_entries_per_row).flatMap (fun s =>
    if 0 ≤ m.column_indices.getD (s * m.stride + i) (-1) then
      [(i, (m.column_indices.getD (s * m.stride + i) (-1)).toNat,
        m.values.getD (s * m.stride + i) 0)]
    else [])

/-- The SpMV entry point `spmv(A, x, y)` over every supported format:
dispatch to the format's kernel (spec 4.5). -/
def spmv {α : Type} [CommRing α] : AnyMat α → List α → List α → List α
  | .coo m, x, y => spmv_coo m x y
  | .csr m, x, y => spmv_csr m x y
  | .ell m, x, y => spmv_ell m x y
  | .dia m, x, y => spmv_dia m x y
  | .hyb m, x, y => spmv_hyb m x y

/-- The mathematical matrix–vector product `A · x` of the matrix represented
by a container in any format: `(A·x)[i] = Σ_j A[i,j] · x[j]`. -/
def AnyMat.matVec {α : Type} [CommRing α] (m : AnyMat α) (x : List α) : List α :=
  (List.range m.num_rows).map (fun i =>
    ((List.range m.num_cols).map (fun j => m.entry i j * x.getD j 0)).sum)

/-- The HYB shape invariant of spec 3 ("combined structure equals the true
sparse matrix exactly"): the COO overflow portion carries the same row count
as the ELL portion. Trivially true for the other four formats. -/
def AnyMat.portionsAligned {α : Type} : AnyMat α → Prop
  | .hyb m => m.coo.num_rows = m.ell.num_rows
  | _ => True

instance {α : Type} (m : AnyMat α) : Decidable m.portionsAligned :=
  match m with
  | .coo _ => .isTrue trivial
  | .csr _ => .isTrue trivial
  | .ell _ => .isTrue trivial
  | .dia _ => .isTrue trivial
  | .hyb m => inferInstanceAs (Decidable (m.coo.num_rows = m.ell.num_rows))

/-- The diagonal matrix `diag(1,2,3,4)` stored directly in DIA format (the
spec's seed test 2): one occupied diagonal at offset 0, `stride = 4`. -/
def diagDIA : DIAMatrix ℤ :=
  { num_rows := 4, num_cols := 4, num_entries := 4, stride := 4,
    diagonal_offsets := [0], values := [1, 2, 3, 4] }

/-- The vector `Mp = M·p` computed by one pass of the `bicgstab` loop body
(identity preconditioner, a copy). -/
def bicgstab_Mp (S : BState) : List ℚ := blas_copy S.p

/-- The vector `AMp = A·Mp` computed by one pass of the `bicgstab` loop body
(after zeroing `AMp`). -/
def bicgstab_AMp (A : LinearOperator) (S : BState) : List ℚ :=
  A.spmv (bicgstab_Mp S) (blas_fill S.AMp 0)

/-- The alpha denominator `dotc(r*, AMp)` of one pass of the `bicgstab` loop
body (src/cusp/krylov/bicgstab.h line 115); the code divides by it with no
check. -/
def bicgstab_alpha_den (A : LinearOperator) (S : BState) : ℚ :=
  blas_dotc S.r_star (bicgstab_AMp A S)

/-- The scalar `alpha = r_r_star_old / dotc(r*, AMp)` of one pass of the
`bicgstab` loop body. -/
def bicgstab_alpha (A : LinearOperator) (S : BState) : ℚ :=
  S.r_r_star_old / bicgstab_alpha_den A S

/-- The vector `s = r − alpha·AMp` of one pass of the `bicgstab` loop
body. -/
def bicgstab_s (A : LinearOperator) (S : BState) : List ℚ :=
  blas_axpby S.r (bicgstab_AMp A S) 1 (-(bicgstab_alpha A S))

/-- The vector `Ms = M·s` of one pass of the `bicgstab` loop body (identity
preconditioner, a copy). -/
def bicgstab_Ms (A : LinearOperator) (S : BState) : List ℚ :=
  blas_copy (bicgstab_s A S)

/-- The vector `AMs = A·Ms` of one pass of the `bicgstab` loop body (after
zeroing `AMs`). -/
def bicgstab_AMs (A : LinearOperator) (S : BState) : List ℚ :=
  A.spmv (bicgstab_Ms A S) (blas_fill S.AMs 0)

/-- The omega denominator `dotc(AMs, AMs)` of one pass of the `bicgstab`
loop body (src/cusp/krylov/bicgstab.h line 128); the code divides by it with
no check. -/
def bicgstab_omega_den (A : LinearOperator) (S : BState) : ℚ :=
  blas_dotc (bicgstab_AMs A S) (bicgstab_AMs A S)

/-- The scalar `omega = dotc(AMs, s) / dotc(AMs, AMs)` of one pass of the
`bicgstab` loop body. -/
def bicgstab_omega (A : LinearOperator) (S : BState) : ℚ :=
  blas_dotc (bicgstab_AMs A S) (bicgstab_s A S) / bicgstab_omega_den A S

/-- The updated `x = x + alpha·Mp + omega·Ms` of one pass of the `bicgstab`
loop body. -/
def bicgstab_x_next (A : LinearOperator) (S : BState) : List ℚ :=
  blas_axpbypcz S.x (bicgstab_Mp S) (bicgstab_Ms A S) 1 (bicgstab_alpha A S)
    (bicgstab_omega A S)

/-- The updated `r = s − omega·AMs` of one pass of the `bicgstab` loop
body. -/
def bicgstab_r_next (A : LinearOperator) (S : BState) : List ℚ :=
  blas_axpby (bicgstab_s A S) (bicgstab_AMs A S) 1 (-(bicgstab_omega A S))

/-- The scalar `beta = (r_r_star_new / r_r_star_old) · (alpha / omega)` of
one pass of the `bicgstab` loop body. -/
def bicgstab_beta (A : LinearOperator) (S : BState) : ℚ :=
  (blas_dotc S.r_star (bicgstab_r_next A S) / S.r_r_star_old) *
    (bicgstab_alpha A S / bicgstab_omega A S)

/-- The updated `p = r + beta·(p − omega·AMp)` of one pass of the `bicgstab`
loop body. -/
def bicgstab_p_next (A : LinearOperator) (S : BState) : List ℚ :=
  blas_axpbypcz (bicgstab_r_next A S) S.p (bicgstab_AMp A S) 1
    (bicgstab_beta A S) (-(bicgstab_beta A S * bicgstab_omega A S))

/-- The state `bicgstab` hands to its `while (true)` loop
(src/cusp/krylov/bicgstab.h lines 52–105): workspace vectors zeroed,
`r = b − A·x`, `p = r`, `r* = r`, and the scalars `(r, r*)` and `‖r‖²` of
the initial residual; `bicgstab_eq_loop_init` below ties it to `bicgstab`
definitionally. -/
def bicgstab_init_state (A : LinearOperator) (x b : List ℚ) : BState :=
  let N := A.num_rows
  let y := A.spmv x (blas_fill (List.replicate N (0 : ℚ)) 0)
  let r := blas_axpby b y 1 (-1)
  { x := x, r := r, p := blas_copy r, r_star := blas_copy r,
    s := List.replicate N (0 : ℚ), Mp := List.replicate N (0 : ℚ),
    AMp := List.replicate N (0 : ℚ), Ms := List.replicate N (0 : ℚ),
    AMs := List.replicate N (0 : ℚ),
    r_r_star_old := blas_dotc (blas_copy r) r,
    r_norm_sq := blas_nrm2sq r }

theorem entryList_nil {α : Type} [CommRing α] (i j : ℕ) :
    entryList ([] : List (Triple α)) i j = 0 := rfl

theorem entryList_cons {α : Type} [CommRing α] (t : Triple α)
    (L : List (Triple α)) (i j : ℕ) :
    entryList (t :: L) i j =
      (if t.1 = i ∧ t.2.1 = j then t.2.2 else 0) + entryList L i j := by
  by_cases h : t.1 = i ∧ t.2.1 = j
  · simp [entryList, List.filter_cons, h.1, h.2, h]
  · rw [if_neg h]
    have : (decide (t.1 = i) && decide (t.2.1 = j)) = false := by
      rcases not_and_or.mp h with h1 | h1 <;> simp [h1]
    simp [entryList, List.filter_cons, this]

theorem entryList_append {α : Type} [CommRing α] (L1 L2 : List (Triple α))
    (i j : ℕ) :
    entryList (L1 ++ L2) i j = entryList L1 i j + entryList L2 i j := by
  simp [entryList, List.filter_append]

theorem entryList_perm {α : Type} [CommRing α] {L L' : List (Triple α)}
    (hp : L.Perm L') (i j : ℕ) : entryList L i j = entryList L' i j :=
  ((hp.filter _).map _).sum_eq

theorem entryList_eq_zero {α : Type} [CommRing α] {L : List (Triple α)}
    {i j : ℕ} (h : ∀ t ∈ L, ¬(t.1 = i ∧ t.2.1 = j)) : entryList L i j = 0 := by
  induction L with
  | nil => rfl
  | cons t L ih =>
    rw [entryList_cons, if_neg (h t (by simp)), ih (fun u hu => h u (by simp [hu]))]
    simp

theorem entryList_flatMap {α β : Type} [CommRing α] (l : List β)
    (g : β → List (Triple α)) (i j : ℕ) :
    entryList (l.flatMap g) i j = (l.map (fun a => entryList (g a) i j)).sum := by
  induction l with
  | nil => rfl
  | cons a l ih => simp [List.flatMap_cons, entryList_append, ih]

theorem sum_map_range_single {M : Type} [AddCommMonoid M] (f : ℕ → M) :
    ∀ (n : ℕ) (i : ℕ), i < n → (∀ j, j < n → j ≠ i → f j = 0) →
      ((List.range n).map f).sum = f i := by
  intro n
  induction n with
  | zero => intro i hi; omega
  | succ n ih =>
    intro i hi hz
    rw [List.range_succ, List.map_append, List.sum_append]
    by_cases h : i = n
    · subst h
      have h0 : ((List.range i).map f).sum = 0 := by
        apply List.sum_eq_zero
        intro x hx
        obtain ⟨j, hj, rfl⟩ := List.mem_map.mp hx
        exact hz j (by simp at hj; omega) (by simp at hj; omega)
      simp [h0]
    · rw [ih i (by omega) (fun j hj hne => hz j (by omega) hne)]
      have hn : f n = 0 := hz n (by omega) (fun he => h he.symm)
      simp [hn]

theorem flatMap_congr_mem {β γ : Type} {l : List β} {f g : β → List γ}
    (h : ∀ a ∈ l, f a = g a) : l.flatMap f = l.flatMap g := by
  induction l with
  | nil => rfl
  | cons a l ih =>
    simp only [List.flatMap_cons]
    rw [h a (by simp), ih (fun b hb => h b (by simp [hb]))]

theorem flatMap_range_decomp {β : Type} (g : ℕ → List β) (i n : ℕ)
    (h : i < n) :
    (List.range n).flatMap g =
      (List.range i).flatMap g ++
        (g i ++ ((List.range (n - i - 1)).map (fun j => i + 1 + j)).flatMap g) := by
  have h1 : n = i + (1 + (n - i - 1)) := by omega
  have e0 : List.range 1 = [0] := rfl
  have e1 : List.map ((fun x => i + x) ∘ fun x => 1 + x) (List.range (n - i - 1)) =
      List.map (fun j => i + 1 + j) (List.range (n - i - 1)) := by
    apply List.map_congr_left
    intro a _
    simp only [Function.comp]
    omega
  conv_lhs => rw [h1]
  rw [List.range_add, List.flatMap_append, List.range_add, List.map_append,
    List.flatMap_append, e0]
  simp only [List.map_cons, List.map_nil, List.flatMap_cons, List.flatMap_nil,
    Nat.add_zero, List.append_nil, List.map_map, e1]

theorem rowEntries_cons {α : Type} (t : Triple α) (L : List (Triple α))
    (i : ℕ) :
    rowEntries (t :: L) i =
      if t.1 = i then t :: rowEntries L i else rowEntries L i := by
  by_cases h : t.1 = i <;> simp [rowEntries, List.filter_cons, h]

theorem flatMap_rowEntries_perm {α : Type} :
    ∀ (L : List (Triple α)) (n : ℕ), (∀ t ∈ L, t.1 < n) →
      ((List.range n).flatMap (fun i => rowEntries L i)).Perm L := by
  intro L
  induction L with
  | nil =>
    intro n _
    have : ∀ i ∈ List.range n, rowEntries ([] : List (Triple α)) i = [] := by
      intro i _; rfl
    rw [flatMap_congr_mem this]
    simp
  | cons t L ih =>
    intro n h
    have ht : t.1 < n := h t (by simp)
    rw [flatMap_range_decomp (fun i => rowEntries (t :: L) i) t.1 n ht]
    have hlow : (List.range t.1).flatMap (fun i => rowEntries (t :: L) i) =
        (List.range t.1).flatMap (fun i => rowEntries L i) := by
      apply flatMap_congr_mem
      intro a ha
      rw [rowEntries_cons, if_neg (by simp at ha; omega)]
    have hhigh :
        ((List.range (n - t.1 - 1)).map (fun j => t.1 + 1 + j)).flatMap
            (fun i => rowEntries (t :: L) i) =
          ((List.range (n - t.1 - 1)).map (fun j => t.1 + 1 + j)).flatMap
            (fun i => rowEntries L i) := by
      apply flatMap_congr_mem
      intro a ha
      obtain ⟨j, _, rfl⟩ := List.mem_map.mp ha
      rw [rowEntries_cons, if_neg (by omega)]
    rw [hlow, hhigh, rowEntries_cons, if_pos rfl, List.cons_append]
    refine List.perm_middle.trans (List.Perm.cons t ?_)
    rw [← flatMap_range_decomp (fun i => rowEntries L i) t.1 n ht]
    exact ih n (fun u hu => h u (by simp [hu]))

theorem getD_map_range {β : Type} (f : ℕ → β) {n i : ℕ} (d : β) (h : i < n) :
    ((List.range n).map f).getD i d = f i := by
  rw [List.getD_eq_getElem _ _ (by simp [h]), List.getElem_map, List.getElem_range]

theorem flatMap_range_slice {β : Type} (g : ℕ → List β) (n i : ℕ) (h : i < n) :
    (((List.range n).flatMap g).drop
        (((List.range i).map (fun j => (g j).length)).sum)).take (g i).length =
      g i := by
  rw [flatMap_range_decomp g i n h]
  have hlen : ((List.range i).flatMap g).length =
      ((List.range i).map (fun j => (g j).length)).sum := by
    rw [List.length_flatMap]
    rfl
  rw [← hlen, List.drop_left, List.take_left]

theorem zip_flatMap_map {β γ δ ε : Type} (l : List β) (F : β → List δ)
    (f : δ → γ) (g : δ → ε) :
    (l.flatMap (fun b => (F b).map f)).zip (l.flatMap (fun b => (F b).map g)) =
      l.flatMap (fun b => (F b).map (fun d => (f d, g d))) := by
  induction l with
  | nil => rfl
  | cons a l ih =>
    simp only [List.flatMap_cons]
    rw [List.zip_append (by simp), ih, List.zip_map']

theorem mem_rowEntries {α : Type} {L : List (Triple α)} {i : ℕ} {t : Triple α}
    (h : t ∈ rowEntries L i) : t ∈ L ∧ t.1 = i := by
  have := List.mem_filter.mp h
  exact ⟨this.1, by simpa using this.2⟩

theorem coo_to_csr_offsets {α : Type} [CommRing α] (c : COOMatrix α) {i : ℕ}
    (h : i ≤ c.num_rows) :
    (coo_to_csr c).row_offsets.getD i 0 =
      ((List.range i).map (fun j => (rowEntries c.triples j).length)).sum := by
  show ((List.range (c.num_rows + 1)).map _).getD i 0 = _
  rw [getD_map_range _ 0 (by omega)]
  congr 1
  rw [← List.map_take, List.take_range, min_eq_left h]

theorem coo_to_csr_triples {α : Type} [CommRing α] (c : COOMatrix α) :
    (coo_to_csr c).triples =
      (List.range c.num_rows).flatMap (fun i => rowEntries c.triples i) := by
  show (List.range c.num_rows).flatMap (coo_to_csr c).rowTriples = _
  apply flatMap_congr_mem
  intro i hi
  have hi' : i < c.num_rows := List.mem_range.mp hi
  show ((((coo_to_csr c).column_indices.zip (coo_to_csr c).values).drop
      ((coo_to_csr c).row_offsets.getD i 0)).take
      ((coo_to_csr c).row_offsets.getD (i + 1) 0 -
        (coo_to_csr c).row_offsets.getD i 0)).map (fun p => (i, p.1, p.2)) = _
  have hzip : (coo_to_csr c).column_indices.zip (coo_to_csr c).values =
      (List.range c.num_rows).flatMap
        (fun j => (rowEntries c.triples j).map (fun t => (t.2.1, t.2.2))) := by
    exact zip_flatMap_map _ _ _ _
  have hoff1 := coo_to_csr_offsets c (le_of_lt hi')
  have hoff2 := coo_to_csr_offsets c (show i + 1 ≤ c.num_rows by omega)
  have hsum1 : ((List.range (i + 1)).map
      (fun j => (rowEntries c.triples j).length)).sum =
      ((List.range i).map (fun j => (rowEntries c.triples j).length)).sum +
        (rowEntries c.triples i).length := by
    rw [List.range_succ, List.map_append, List.sum_append]
    simp
  have htake : (coo_to_csr c).row_offsets.getD (i + 1) 0 -
      (coo_to_csr c).row_offsets.getD i 0 = (rowEntries c.triples i).length := by
    rw [hoff1, hoff2, hsum1]
    omega
  rw [hzip, htake, hoff1]
  have hlens : ((List.range i).map (fun j => (rowEntries c.triples j).length)).sum =
      ((List.range i).map (fun j =>
        ((rowEntries c.triples j).map (fun t => (t.2.1, t.2.2))).length)).sum := by
    congr 1
    apply List.map_congr_left
    intro a _
    rw [List.length_map]
  have hlen2 : (rowEntries c.triples i).length =
      ((rowEntries c.triples i).map (fun t => (t.2.1, t.2.2))).length := by
    rw [List.length_map]
  rw [hlens, hlen2,
    flatMap_range_slice (fun j => (rowEntries c.triples j).map (fun t => (t.2.1, t.2.2)))
      c.num_rows i hi', List.map_map]
  apply List.ext_getElem (by simp)
  intro k h1 h2
  simp only [List.getElem_map, Function.comp]
  have hmem : (rowEntries c.triples i)[k] ∈ rowEntries c.triples i :=
    List.getElem_mem h2
  have h3 := (mem_rowEntries hmem).2
  exact Prod.ext h3.symm Prod.mk.eta

theorem coo_to_csr_triples_perm {α : Type} [CommRing α] (c : COOMatrix α)
    (h : boundedTriples c.num_rows c.num_cols c.triples) :
    (coo_to_csr c).triples.Perm c.triples := by
  rw [coo_to_csr_triples]
  exact flatMap_rowEntries_perm c.triples c.num_rows (fun t ht => (h t ht).1)

theorem le_foldr_max (l : List ℕ) (x : ℕ) (h : x ∈ l) : x ≤ l.foldr max 0 := by
  induction l with
  | nil => simp at h
  | cons a l ih =>
    rcases List.mem_cons.mp h with rfl | h2
    · simp
    · exact le_trans (ih h2) (by simp)

theorem cooOfTriples_triples {α : Type} (r c : ℕ) (L : List (Triple α)) :
    (cooOfTriples r c L).triples = L := by
  show (L.map (fun t => t.1)).zip
      ((L.map (fun t => t.2.1)).zip (L.map (fun t => t.2.2))) = L
  rw [List.zip_map', List.zip_map']
  have : ∀ t ∈ L, (t.1, t.2.1, t.2.2) = (id t : Triple α) := by
    intro t _
    exact Prod.ext rfl Prod.mk.eta
  rw [List.map_congr_left this, List.map_id]

theorem flatMap_range_lookup {β γ : Type} (f : β → γ) :
    ∀ (L : List β) (E : ℕ),
      (List.range E).flatMap (fun s => ((L.get? s).map f).toList) =
        (L.take E).map f := by
  intro L
  induction L with
  | nil =>
    intro E
    have h0 : ∀ s ∈ List.range E, ((([] : List β).get? s).map f).toList = [] := by
      intro s _
      rfl
    rw [flatMap_congr_mem h0]
    simp
  | cons a L ih =>
    intro E
    cases E with
    | zero => rfl
    | succ e =>
      rw [List.range_succ_eq_map, List.flatMap_cons, List.flatMap_map]
      show (((a :: L).get? 0).map f).toList ++
          (List.range e).flatMap (fun s => ((L.get? s).map f).toList) = _
      rw [ih e]
      rfl

theorem ellOfRows_slotCol {α : Type} [CommRing α] (rows cols nnz E : ℕ)
    (row : ℕ → List (Triple α)) {i s : ℕ} (hi : i < rows) (hs : s < E) :
    (ellOfRows rows cols nnz E row).column_indices.getD (s * rows + i) (-1) =
      (((row i).get? s).map (fun t => (t.2.1 : ℤ))).getD (-1) := by
  have hidx : s * rows + i < E * rows := by
    calc s * rows + i < s * rows + rows := by omega
    _ = (s + 1) * rows := by ring
    _ ≤ E * rows := Nat.mul_le_mul_right _ (by omega)
  show ((List.range (E * rows)).map _).getD _ _ = _
  rw [getD_map_range _ _ hidx]
  have hcomm : s * rows + i = rows * s + i := by ring
  have hmod : (s * rows + i) % rows = i := by
    rw [hcomm, Nat.mul_add_mod, Nat.mod_eq_of_lt hi]
  have hdiv : (s * rows + i) / rows = s := by
    rw [hcomm, Nat.mul_add_div (by omega : 0 < rows), Nat.div_eq_of_lt hi]
    rfl
  rw [hmod, hdiv]

  cases (row i).get? s <;> rfl

theorem ellOfRows_slotVal {α : Type} [CommRing α] (rows cols nnz E : ℕ)
    (row : ℕ → List (Triple α)) {i s : ℕ} (hi : i < rows) (hs : s < E) :
    (ellOfRows rows cols nnz E row).values.getD (s * rows + i) 0 =
      (((row i).get? s).map (fun t => t.2.2)).getD 0 := by
  have hidx : s * rows + i < E * rows := by
    calc s * rows + i < s * rows + rows := by omega
    _ = (s + 1) * rows := by ring
    _ ≤ E * rows := Nat.mul_le_mul_right _ (by omega)
  show ((List.range (E * rows)).map _).getD _ _ = _
  rw [getD_map_range _ _ hidx]
  have hcomm : s * rows + i = rows * s + i := by ring
  have hmod : (s * rows + i) % rows = i := by
    rw [hcomm, Nat.mul_add_mod, Nat.mod_eq_of_lt hi]
  have hdiv : (s * rows + i) / rows = s := by
    rw [hcomm, Nat.mul_add_div (by omega : 0 < rows), Nat.div_eq_of_lt hi]
    rfl
  rw [hmod, hdiv]

  cases (row i).get? s <;> rfl

theorem ellOfRows_triples {α : Type} [CommRing α] (rows cols nnz E : ℕ)
    (row : ℕ → List (Triple α)) (htag : ∀ i, ∀ t ∈ row i, t.1 = i) :
    (ellOfRows rows cols nnz E row).triples =
      (List.range rows).flatMap (fun i => (row i).take E) := by
  show (List.range rows).flatMap _ = _
  apply flatMap_congr_mem
  intro i hi
  have hi' : i < rows := List.mem_range.mp hi
  have hinner : ∀ s ∈ List.range E,
      (if 0 ≤ (ellOfRows rows cols nnz E row).column_indices.getD
          (s * (ellOfRows rows cols nnz E row).stride + i) (-1) then
        [(i, ((ellOfRows rows cols nnz E row).column_indices.getD
            (s * (ellOfRows rows cols nnz E row).stride + i) (-1)).toNat,
          (ellOfRows rows cols nnz E row).values.getD
            (s * (ellOfRows rows cols nnz E row).stride + i) 0)]
       else []) =
      (((row i).get? s).map (fun t => (t : Triple α))).toList := by
    intro s hs
    have hs' : s < E := List.mem_range.mp hs
    have hstride : (ellOfRows rows cols nnz E row).stride = rows := rfl
    rw [hstride, ellOfRows_slotCol rows cols nnz E row hi' hs',
      ellOfRows_slotVal rows cols nnz E row hi' hs']
    cases hc : (row i).get? s with
    | none => rfl
    | some t =>
      have htag' : t.1 = i := htag i t (List.get?_mem hc)
      show (if 0 ≤ ((t.2.1 : ℕ) : ℤ) then
          [(i, ((t.2.1 : ℕ) : ℤ).toNat, t.2.2)] else []) = [t]
      rw [if_pos (Int.natCast_nonneg t.2.1), Int.toNat_natCast, ← htag']
  show (List.range E).flatMap _ = _
  rw [flatMap_congr_mem hinner]
  have hlk := flatMap_range_lookup (fun t : Triple α => t) (row i) E
  rw [hlk, List.map_id']

theorem maxRowLength_ge {α : Type} (c : COOMatrix α) {i : ℕ}
    (hi : i < c.num_rows) : (rowEntries c.triples i).length ≤ maxRowLength c :=
  le_foldr_max _ _ (List.mem_map.mpr ⟨i, List.mem_range.mpr hi, rfl⟩)

theorem coo_to_ell_triples_perm {α : Type} [CommRing α] {θ : ℕ}
    {c : COOMatrix α} {e : ELLMatrix α} (hb : boundedTriples c.num_rows c.num_cols c.triples)
    (h : coo_to_ell θ c = some e) : e.triples.Perm c.triples := by
  unfold coo_to_ell at h
  split at h
  · exact absurd h (by simp)
  · have he : e = ellOfRows c.num_rows c.num_cols c.num_entries (maxRowLength c)
        (rowEntries c.triples) := by
      injection h with h'
      exact h'.symm
    subst he
    rw [ellOfRows_triples _ _ _ _ _ (fun i t ht => (mem_rowEntries ht).2)]
    have : ∀ i ∈ List.range c.num_rows,
        (rowEntries c.triples i).take (maxRowLength c) = rowEntries c.triples i := by
      intro i hi
      exact List.take_of_length_le (maxRowLength_ge c (List.mem_range.mp hi))
    rw [flatMap_congr_mem this]
    exact flatMap_rowEntries_perm c.triples c.num_rows (fun t ht => (hb t ht).1)

theorem flatMap_append_perm {β γ : Type} (l : List β) (f g : β → List γ) :
    (l.flatMap f ++ l.flatMap g).Perm (l.flatMap (fun x => f x ++ g x)) := by
  induction l with
  | nil => rfl
  | cons a l ih =>
    simp only [List.flatMap_cons]
    have h2 : (l.flatMap f ++ (g a ++ l.flatMap g)).Perm
        (g a ++ (l.flatMap f ++ l.flatMap g)) := by
      rw [← List.append_assoc, ← List.append_assoc]
      exact List.Perm.append_right _ List.perm_append_comm
    have h4 : ((f a ++ l.flatMap f) ++ (g a ++ l.flatMap g)).Perm
        ((f a ++ g a) ++ (l.flatMap f ++ l.flatMap g)) := by
      rw [List.append_assoc (f a) (l.flatMap f) (g a ++ l.flatMap g),
        List.append_assoc (f a) (g a) (l.flatMap f ++ l.flatMap g)]
      exact List.Perm.append_left _ h2
    exact h4.trans (List.Perm.append_left _ ih)

theorem coo_to_hyb_triples_perm {α : Type} [CommRing α] {c : COOMatrix α}
    (hb : boundedTriples c.num_rows c.num_cols c.triples) :
    (coo_to_hyb c).triples.Perm c.triples := by
  show ((coo_to_hyb c).ell.triples ++ (coo_to_hyb c).coo.triples).Perm c.triples
  have hE : (coo_to_hyb c).ell = ellOfRows c.num_rows c.num_cols c.num_entries
      (c.num_entries / c.num_rows) (rowEntries c.triples) := rfl
  have hC : (coo_to_hyb c).coo = cooOfTriples c.num_rows c.num_cols
      ((List.range c.num_rows).flatMap
        (fun i => (rowEntries c.triples i).drop (c.num_entries / c.num_rows))) := rfl
  rw [hE, hC, cooOfTriples_triples,
    ellOfRows_triples _ _ _ _ _ (fun i t ht => (mem_rowEntries ht).2)]
  refine (flatMap_append_perm _ _ _).trans ?_
  have : ∀ i ∈ List.range c.num_rows,
      (rowEntries c.triples i).take (c.num_entries / c.num_rows) ++
        (rowEntries c.triples i).drop (c.num_entries / c.num_rows) =
      rowEntries c.triples i := by
    intro i _
    exact List.take_append_drop _ _
  rw [flatMap_congr_mem this]
  exact flatMap_rowEntries_perm c.triples c.num_rows (fun t ht => (hb t ht).1)

theorem entryList_singleton {α : Type} [CommRing α] (t : Triple α) (i j : ℕ) :
    entryList [t] i j = if t.1 = i ∧ t.2.1 = j then t.2.2 else 0 := by
  rw [entryList_cons, entryList_nil, add_zero]

theorem occupiedDiagonals_nodup {α : Type} (c : COOMatrix α) :
    (occupiedDiagonals c).Nodup := List.nodup_dedup _

theorem mem_occupiedDiagonals {α : Type} {c : COOMatrix α} {d : ℤ} :
    d ∈ occupiedDiagonals c ↔ ∃ t ∈ c.triples, (t.2.1 : ℤ) - (t.1 : ℤ) = d := by
  unfold occupiedDiagonals
  rw [List.mem_dedup, (List.perm_insertionSort _ _).mem_iff, List.mem_map]

theorem dia_entry_general {α : Type} [CommRing α] (c : COOMatrix α)
    (nnz : ℕ) (vals : List α)
    (hvals : ∀ k i', k < (occupiedDiagonals c).length → i' < c.num_rows →
      vals.getD (k * c.num_rows + i') 0 =
        (if 0 ≤ (i' : ℤ) + (occupiedDiagonals c).getD k 0 ∧
            (i' : ℤ) + (occupiedDiagonals c).getD k 0 < (c.num_cols : ℤ) then
          entryList c.triples i'
            (((i' : ℤ) + (occupiedDiagonals c).getD k 0).toNat)
        else 0))
    (hb : boundedTriples c.num_rows c.num_cols c.triples) (i j : ℕ) :
    entryList
      (DIAMatrix.triples
        ⟨c.num_rows, c.num_cols, nnz, c.num_rows, occupiedDiagonals c, vals⟩)
      i j = entryList c.triples i j := by
  show entryList
      ((List.range (occupiedDiagonals c).length).flatMap (fun k =>
        (List.range c.num_rows).flatMap (fun i' =>
          if 0 ≤ (i' : ℤ) + (occupiedDiagonals c).getD k 0 ∧
              (i' : ℤ) + (occupiedDiagonals c).getD k 0 < (c.num_cols : ℤ) then
            [(i', ((i' : ℤ) + (occupiedDiagonals c).getD k 0).toNat,
              vals.getD (k * c.num_rows + i') 0)]
          else []))) i j = _
  rw [entryList_flatMap]
  have hkterm : ∀ k ∈ List.range (occupiedDiagonals c).length,
      entryList ((List.range c.num_rows).flatMap (fun i' =>
        if 0 ≤ (i' : ℤ) + (occupiedDiagonals c).getD k 0 ∧
            (i' : ℤ) + (occupiedDiagonals c).getD k 0 < (c.num_cols : ℤ) then
          [(i', ((i' : ℤ) + (occupiedDiagonals c).getD k 0).toNat,
            vals.getD (k * c.num_rows + i') 0)]
        else [])) i j =
      if (occupiedDiagonals c).getD k 0 = (j : ℤ) - (i : ℤ) ∧
          i < c.num_rows ∧ j < c.num_cols then
        entryList c.triples i j
      else 0 := by
    intro k hk
    have hk' : k < (occupiedDiagonals c).length := List.mem_range.mp hk
    rw [entryList_flatMap]
    have hterm0 : ∀ i', i' ≠ i →
        entryList (if 0 ≤ (i' : ℤ) + (occupiedDiagonals c).getD k 0 ∧
            (i' : ℤ) + (occupiedDiagonals c).getD k 0 < (c.num_cols : ℤ) then
          [(i', ((i' : ℤ) + (occupiedDiagonals c).getD k 0).toNat,
            vals.getD (k * c.num_rows + i') 0)]
        else []) i j = 0 := by
      intro i' hne
      split
      · rw [entryList_singleton, if_neg]
        intro hcon
        exact hne hcon.1
      · rfl
    by_cases hi : i < c.num_rows
    · rw [sum_map_range_single _ c.num_rows i hi
        (fun i' _ h2 => hterm0 i' h2)]
      rw [hvals k i hk' hi]
      by_cases hoff : (occupiedDiagonals c).getD k 0 = (j : ℤ) - (i : ℤ)
      · by_cases hj : j < c.num_cols
        · have hin : 0 ≤ (i : ℤ) + (occupiedDiagonals c).getD k 0 ∧
              (i : ℤ) + (occupiedDiagonals c).getD k 0 < (c.num_cols : ℤ) := by
            rw [hoff]
            omega
          have htn : ((i : ℤ) + (occupiedDiagonals c).getD k 0).toNat = j := by
            rw [hoff]
            omega
          rw [if_pos hin, if_pos hin, entryList_singleton, htn,
            if_pos ⟨rfl, rfl⟩, if_pos ⟨hoff, hi, hj⟩]
        · have hnin : ¬(0 ≤ (i : ℤ) + (occupiedDiagonals c).getD k 0 ∧
              (i : ℤ) + (occupiedDiagonals c).getD k 0 < (c.num_cols : ℤ)) := by
            rw [hoff]
            omega
          rw [if_neg hnin, if_neg (fun hcon => hj hcon.2.2)]
          rfl
      · conv_rhs => rw [if_neg (fun hcon => hoff hcon.1)]
        split
        next hin =>
          rw [entryList_singleton, if_neg]
          intro hcon
          apply hoff
          have h2 : (↑i + (occupiedDiagonals c).getD k 0).toNat = j := hcon.2
          have h3 := Int.toNat_of_nonneg hin.1
          rw [h2] at h3
          omega
        next => rfl
    · have hzero : ∀ x ∈ (List.range c.num_rows).map (fun (i' : ℕ) =>
          entryList (if 0 ≤ (i' : ℤ) + (occupiedDiagonals c).getD k 0 ∧
              (i' : ℤ) + (occupiedDiagonals c).getD k 0 < (c.num_cols : ℤ) then
            [(i', ((i' : ℤ) + (occupiedDiagonals c).getD k 0).toNat,
              vals.getD (k * c.num_rows + i') 0)]
          else []) i j), x = 0 := by
        intro x hx
        obtain ⟨i', hi', rfl⟩ := List.mem_map.mp hx
        exact hterm0 i' (fun he => hi (he ▸ List.mem_range.mp hi'))
      rw [List.sum_eq_zero hzero, if_neg (fun hcon => hi hcon.2.1)]
  rw [List.map_congr_left hkterm]
  by_cases hij : i < c.num_rows ∧ j < c.num_cols
  · by_cases hd : ((j : ℤ) - (i : ℤ)) ∈ occupiedDiagonals c
    · obtain ⟨k0, hk0len, hk0d⟩ := List.mem_iff_getElem.mp hd
      have hz : ∀ k, k < (occupiedDiagonals c).length → k ≠ k0 →
          (if (occupiedDiagonals c).getD k 0 = (j : ℤ) - (i : ℤ) ∧
              i < c.num_rows ∧ j < c.num_cols then
            entryList c.triples i j
          else 0) = 0 := by
        intro k hk hkne
        rw [if_neg]
        intro hcon
        apply hkne
        have he1 : (occupiedDiagonals c).getD k 0 = (occupiedDiagonals c)[k] :=
          List.getD_eq_getElem _ _ hk
        have : (occupiedDiagonals c)[k] = (occupiedDiagonals c)[k0] := by
          rw [← he1, hcon.1, hk0d]
        exact ((occupiedDiagonals_nodup c).getElem_inj_iff).mp this
      rw [sum_map_range_single _ _ k0 hk0len (fun k h1 h2 => hz k h1 h2)]
      rw [if_pos ⟨by rw [List.getD_eq_getElem _ _ hk0len, hk0d], hij.1, hij.2⟩]
    · have hzero : ∀ x ∈ (List.range (occupiedDiagonals c).length).map (fun k =>
          if (occupiedDiagonals c).getD k 0 = (j : ℤ) - (i : ℤ) ∧
              i < c.num_rows ∧ j < c.num_cols then
            entryList c.triples i j
          else 0), x = 0 := by
        intro x hx
        obtain ⟨k, hk, rfl⟩ := List.mem_map.mp hx
        have hk' : k < (occupiedDiagonals c).length := List.mem_range.mp hk
        rw [if_neg]
        intro hcon
        apply hd
        rw [← hcon.1, List.getD_eq_getElem _ _ hk']
        exact List.getElem_mem hk'
      rw [List.sum_eq_zero hzero]
      symm
      apply entryList_eq_zero
      intro t ht hcon
      apply hd
      apply mem_occupiedDiagonals.mpr
      exact ⟨t, ht, by rw [hcon.1, hcon.2]⟩
  · have hzero : ∀ x ∈ (List.range (occupiedDiagonals c).length).map (fun k =>
        if (occupiedDiagonals c).getD k 0 = (j : ℤ) - (i : ℤ) ∧
            i < c.num_rows ∧ j < c.num_cols then
          entryList c.triples i j
        else 0), x = 0 := by
      intro x hx
      obtain ⟨k, _, rfl⟩ := List.mem_map.mp hx
      rw [if_neg (fun hcon => hij ⟨hcon.2.1, hcon.2.2⟩)]
    rw [List.sum_eq_zero hzero]
    symm
    apply entryList_eq_zero
    intro t ht hcon
    apply hij
    have hbt := hb t ht
    exact ⟨hcon.1 ▸ hbt.1, hcon.2 ▸ hbt.2⟩

theorem coo_to_ell_eq {α : Type} [CommRing α] {θ : ℕ} {c : COOMatrix α}
    {e : ELLMatrix α} (h : coo_to_ell θ c = some e) :
    e = ellOfRows c.num_rows c.num_cols c.num_entries (maxRowLength c)
      (rowEntries c.triples) := by
  unfold coo_to_ell at h
  split at h
  · exact absurd h (by simp)
  · injection h with h'
    exact h'.symm

theorem coo_to_dia_entry {α : Type} [CommRing α] {θ : ℕ} {c : COOMatrix α}
    {m : DIAMatrix α} (hb : boundedTriples c.num_rows c.num_cols c.triples)
    (h : coo_to_dia θ c = some m) (i j : ℕ) :
    entryList m.triples i j = entryList c.triples i j := by
  unfold coo_to_dia at h
  split at h
  · exact absurd h (by simp)
  · injection h with h'
    subst h'
    refine dia_entry_general c c.num_entries _ ?_ hb i j
    intro k i' hk hi'
    have hidx : k * c.num_rows + i' < (occupiedDiagonals c).length * c.num_rows := by
      calc k * c.num_rows + i' < k * c.num_rows + c.num_rows := by omega
      _ = (k + 1) * c.num_rows := by ring
      _ ≤ (occupiedDiagonals c).length * c.num_rows :=
          Nat.mul_le_mul_right _ (by omega)
    show ((List.range _).map _).getD _ _ = _
    rw [getD_map_range _ _ hidx]
    have hcomm : k * c.num_rows + i' = c.num_rows * k + i' := by ring
    have hmod : (k * c.num_rows + i') % c.num_rows = i' := by
      rw [hcomm, Nat.mul_add_mod, Nat.mod_eq_of_lt hi']
    have hdiv : (k * c.num_rows + i') / c.num_rows = k := by
      rw [hcomm, Nat.mul_add_div (by omega : 0 < c.num_rows),
        Nat.div_eq_of_lt hi']
      rfl
    rw [hmod, hdiv]

theorem coo_to_dia_shape {α : Type} [CommRing α] {θ : ℕ} {c : COOMatrix α}
    {m : DIAMatrix α} (h : coo_to_dia θ c = some m) :
    m.num_rows = c.num_rows ∧ m.num_cols = c.num_cols := by
  unfold coo_to_dia at h
  split at h
  · exact absurd h (by simp)
  · injection h with h'
    subst h'
    exact ⟨rfl, rfl⟩

theorem dia_triples_bounded {α : Type} [CommRing α] (m : DIAMatrix α) :
    ∀ t ∈ m.triples, t.1 < m.num_rows ∧ t.2.1 < m.num_cols := by
  intro t ht
  unfold DIAMatrix.triples at ht
  obtain ⟨k, _, ht2⟩ := List.mem_flatMap.mp ht
  obtain ⟨i, hi, ht3⟩ := List.mem_flatMap.mp ht2
  split at ht3
  next hcond =>
    rcases List.mem_singleton.mp ht3 with rfl
    refine ⟨List.mem_range.mp hi, ?_⟩
    have h1 := hcond.1
    have h2 := hcond.2
    show ((i : ℤ) + m.diagonal_offsets.getD k 0).toNat < m.num_cols
    omega
  next => simp at ht3

theorem toCOO_triples {α : Type} [CommRing α] (m : AnyMat α) :
    (toCOO m).triples = m.triples := by
  cases m with
  | coo m => rfl
  | csr m => exact cooOfTriples_triples _ _ _
  | ell m => exact cooOfTriples_triples _ _ _
  | dia m => exact cooOfTriples_triples _ _ _
  | hyb m => exact cooOfTriples_triples _ _ _

theorem toCOO_num_rows {α : Type} [CommRing α] (m : AnyMat α) :
    (toCOO m).num_rows = m.num_rows := by
  cases m <;> rfl

theorem toCOO_num_cols {α : Type} [CommRing α] (m : AnyMat α) :
    (toCOO m).num_cols = m.num_cols := by
  cases m <;> rfl

theorem fromCOO_preserves {α : Type} [CommRing α] (θe θd : ℕ) (dst : Fmt)
    (c : COOMatrix α) (m' : AnyMat α)
    (hb : boundedTriples c.num_rows c.num_cols c.triples)
    (h : fromCOO θe θd dst c = some m') :
    m'.num_rows = c.num_rows ∧ m'.num_cols = c.num_cols ∧
      (∀ i j, m'.entry i j = entryList c.triples i j) ∧
      boundedTriples c.num_rows c.num_cols m'.triples := by
  cases dst with
  | coo =>
    injection h with h'
    subst h'
    exact ⟨rfl, rfl, fun i j => rfl, hb⟩
  | csr =>
    injection h with h'
    subst h'
    have hperm := coo_to_csr_triples_perm c hb
    exact ⟨rfl, rfl, fun i j => entryList_perm hperm i j,
      fun t ht => hb t (hperm.mem_iff.mp ht)⟩
  | ell =>
    simp only [fromCOO] at h
    cases he : coo_to_ell θe c with
    | none => rw [he] at h; exact absurd h (by simp)
    | some e =>
      rw [he] at h
      injection h with h'
      subst h'
      have hperm := coo_to_ell_triples_perm hb he
      have hshape := coo_to_ell_eq he
      refine ⟨by rw [hshape]; rfl, by rw [hshape]; rfl,
        fun i j => entryList_perm hperm i j,
        fun t ht => hb t (hperm.mem_iff.mp ht)⟩
  | dia =>
    simp only [fromCOO] at h
    cases hd : coo_to_dia θd c with
    | none => rw [hd] at h; exact absurd h (by simp)
    | some d =>
      rw [hd] at h
      injection h with h'
      subst h'
      have hshape := coo_to_dia_shape hd
      refine ⟨hshape.1, hshape.2, fun i j => coo_to_dia_entry hb hd i j, ?_⟩
      intro t ht
      have hbd := dia_triples_bounded d t ht
      exact ⟨hshape.1 ▸ hbd.1, hshape.2 ▸ hbd.2⟩
  | hyb =>
    injection h with h'
    subst h'
    have hperm := coo_to_hyb_triples_perm hb
    exact ⟨rfl, rfl, fun i j => entryList_perm hperm i j,
      fun t ht => hb t (hperm.mem_iff.mp ht)⟩

theorem convert_preserves {α : Type} [CommRing α] (θe θd : ℕ) (dst : Fmt)
    (m m' : AnyMat α) (hwf : m.WF) (h : convert θe θd dst m = some m') :
    m'.num_rows = m.num_rows ∧ m'.num_cols = m.num_cols ∧
      (∀ i j, m'.entry i j = m.entry i j) ∧ m'.WF := by
  unfold convert at h
  have hb : boundedTriples (toCOO m).num_rows (toCOO m).num_cols
      (toCOO m).triples := by
    rw [toCOO_triples, toCOO_num_rows, toCOO_num_cols]
    exact hwf
  have hp := fromCOO_preserves θe θd dst (toCOO m) m' hb h
  refine ⟨by rw [hp.1, toCOO_num_rows], by rw [hp.2.1, toCOO_num_cols], ?_, ?_⟩
  · intro i j
    have := hp.2.2.1 i j
    rw [toCOO_triples] at this
    exact this
  · show boundedTriples m'.num_rows m'.num_cols m'.triples
    rw [hp.1, hp.2.1, toCOO_num_rows, toCOO_num_cols]
    have hb' := hp.2.2.2
    rw [toCOO_num_rows, toCOO_num_cols] at hb'
    exact hb'

theorem map_getD_range_eq_self (x : List ℚ) {n : ℕ} (h : x.length = n) :
    (List.range n).map (fun i => x.getD i 0) = x := by
  apply List.ext_getElem (by simp [h])
  intro k h1 h2
  rw [List.getElem_map, List.getElem_range, List.getD_eq_getElem _ _ (by omega)]

theorem cooIdentity_triples (n : ℕ) :
    (cooIdentity n).triples = (List.range n).map (fun k => (k, k, (1 : ℚ))) := by
  apply List.ext_getElem (by simp [cooIdentity, COOMatrix.triples])
  intro k h1 h2
  simp only [COOMatrix.triples, cooIdentity] at h1 ⊢
  rw [List.getElem_zip, List.getElem_zip]
  simp

theorem spmv_coo_identity (n : ℕ) (x y : List ℚ) (h : x.length = n) :
    spmv_coo (cooIdentity n) x y = x := by
  have h1 : ∀ i ∈ List.range n, (((cooIdentity n).triples).map
      (fun t => if t.1 = i then t.2.2 * x.getD t.2.1 0 else 0)).sum =
      x.getD i 0 := by
    intro i hi
    rw [cooIdentity_triples, List.map_map]
    have hz : ∀ j, j < n → j ≠ i →
        ((fun (t : Triple ℚ) => if t.1 = i then t.2.2 * x.getD t.2.1 0 else 0) ∘
          (fun k => (k, k, (1 : ℚ)))) j = 0 := by
      intro j _ hne
      exact if_neg hne
    rw [sum_map_range_single _ n i (List.mem_range.mp hi) hz]
    show (if i = i then (1 : ℚ) * x.getD i 0 else 0) = x.getD i 0
    rw [if_pos rfl, one_mul]
  show (List.range n).map _ = x
  rw [List.map_congr_left h1]
  exact map_getD_range_eq_self x h

theorem sum_row_eq_matVec {α : Type} [CommRing α] (x : List α) (cols : ℕ) :
    ∀ (L : List (Triple α)), (∀ t ∈ L, t.2.1 < cols) → ∀ (i : ℕ),
      (L.map (fun t => if t.1 = i then t.2.2 * x.getD t.2.1 0 else 0)).sum =
      ((List.range cols).map (fun j => entryList L i j * x.getD j 0)).sum := by
  intro L
  induction L with
  | nil =>
    intro _ i
    rw [List.map_nil, List.sum_nil]
    symm
    apply List.sum_eq_zero
    intro z hz
    obtain ⟨j, _, rfl⟩ := List.mem_map.mp hz
    rw [entryList_nil, zero_mul]
  | cons t L ih =>
    intro hb i
    rw [List.map_cons, List.sum_cons, ih (fun u hu => hb u (by simp [hu])) i]
    have hsplit : ∀ j ∈ List.range cols,
        entryList (t :: L) i j * x.getD j 0 =
        (if t.1 = i ∧ t.2.1 = j then t.2.2 else 0) * x.getD j 0 +
          entryList L i j * x.getD j 0 := by
      intro j _
      rw [entryList_cons, add_mul]
    rw [List.map_congr_left hsplit, List.sum_map_add]
    congr 1
    by_cases hti : t.1 = i
    · rw [if_pos hti]
      have hz : ∀ j, j < cols → j ≠ t.2.1 →
          (if t.1 = i ∧ t.2.1 = j then t.2.2 else 0) * x.getD j 0 = 0 := by
        intro j _ hne
        rw [if_neg, zero_mul]
        intro hc
        exact hne hc.2.symm
      rw [sum_map_range_single _ cols t.2.1 (hb t (by simp)) hz,
        if_pos ⟨hti, rfl⟩]
    · rw [if_neg hti]
      symm
      apply List.sum_eq_zero
      intro z hz
      obtain ⟨j, _, rfl⟩ := List.mem_map.mp hz
      rw [if_neg (fun hc => hti hc.1), zero_mul]

theorem zipWith_replicate_right_eq {β γ δ : Type} (f : β → γ → δ) (a : γ) :
    ∀ (l : List β) (n : ℕ), l.length = n →
      List.zipWith f l (List.replicate n a) = l.map (fun x => f x a) := by
  intro l
  induction l with
  | nil => intro n _; simp
  | cons x l ih =>
    intro n hn
    cases n with
    | zero => simp at hn
    | succ m =>
      rw [List.replicate_succ]
      simp only [List.zipWith_cons_cons, List.map_cons]
      rw [ih m (by simpa using hn)]

theorem zipWith_self_eq {β γ : Type} (f : β → β → γ) (l : List β) :
    List.zipWith f l l = l.map (fun a => f a a) := by
  induction l with
  | nil => rfl
  | cons a l ih => simp [ih]

theorem dotc_self (v : List ℚ) : blas_dotc v v = blas_nrm2sq v := by
  unfold blas_dotc blas_nrm2sq
  rw [zipWith_self_eq]

theorem dotc_replicate_zero_left :
    ∀ (n : ℕ) (v : List ℚ), blas_dotc (List.replicate n 0) v = 0 := by
  intro n
  induction n with
  | zero => intro v; rfl
  | succ m ih =>
    intro v
    cases v with
    | nil => rfl
    | cons a v =>
      show ((0 : ℚ) * a + (List.zipWith (fun a b => a * b)
        (List.replicate m 0) v).sum) = 0
      have := ih v
      unfold blas_dotc at this
      rw [this]
      simp

theorem nrm2sq_nonneg (v : List ℚ) : 0 ≤ blas_nrm2sq v := by
  apply List.sum_nonneg
  intro z hz
  obtain ⟨a, _, rfl⟩ := List.mem_map.mp hz
  exact mul_self_nonneg a

theorem nrm2sq_replicate_zero (n : ℕ) :
    blas_nrm2sq (List.replicate n 0) = 0 := by
  unfold blas_nrm2sq
  rw [List.map_replicate, List.sum_replicate]
  simp

theorem nrm2sq_eq_zero_iff (v : List ℚ) :
    blas_nrm2sq v = 0 ↔ v = List.replicate v.length 0 := by
  induction v with
  | nil => simp [blas_nrm2sq]
  | cons a v ih =>
    show (a * a + blas_nrm2sq v = 0) ↔ _
    rw [add_eq_zero_iff_of_nonneg (mul_self_nonneg a) (nrm2sq_nonneg v),
      mul_self_eq_zero]
    rw [show List.replicate (a :: v).length (0 : ℚ) =
      0 :: List.replicate v.length 0 from rfl]
    constructor
    · rintro ⟨rfl, h2⟩
      rw [ih.mp h2]
      simp
    · intro h
      injection h with h1 h2
      exact ⟨h1, ih.mpr h2⟩

theorem nrm2sq_pos {v : List ℚ} (h : v ≠ List.replicate v.length 0) :
    0 < blas_nrm2sq v := by
  rcases lt_or_eq_of_le (nrm2sq_nonneg v) with hlt | heq
  · exact hlt
  · exact absurd ((nrm2sq_eq_zero_iff v).mp heq.symm) h

theorem zipWith3_replicate_sides (f : ℚ → ℚ → ℚ → ℚ) (a c : ℚ) :
    ∀ (y : List ℚ) (n : ℕ), y.length = n →
      List.zipWith3 f (List.replicate n a) y (List.replicate n c) =
        y.map (fun b => f a b c) := by
  intro y
  induction y with
  | nil =>
    intro n _
    cases n <;> rfl
  | cons b y ih =>
    intro n hn
    cases n with
    | zero => simp at hn
    | succ m =>
      rw [List.replicate_succ]
      show f a b c :: List.zipWith3 f (List.replicate m a) y (List.replicate m c) = _
      rw [ih m (by simpa using hn)]
      rfl

theorem zipWith3_replicate_left (f : ℚ → ℚ → ℚ → ℚ) (a : ℚ) :
    ∀ (y z : List ℚ) (n : ℕ), y.length = n →
      List.zipWith3 f (List.replicate n a) y z =
        List.zipWith (fun b c => f a b c) y z := by
  intro y
  induction y with
  | nil =>
    intro z n _
    cases n <;> cases z <;> rfl
  | cons b y ih =>
    intro z n hn
    cases n with
    | zero => simp at hn
    | succ m =>
      cases z with
      | nil => rfl
      | cons c z =>
        show f a b c :: List.zipWith3 f (List.replicate m a) y z = _
        rw [ih z m (by simpa using hn)]
        rfl

theorem zipWith3_length {β γ δ ε : Type} (f : β → γ → δ → ε) :
    ∀ (l1 : List β) (l2 : List γ) (l3 : List δ),
      (List.zipWith3 f l1 l2 l3).length =
        min l1.length (min l2.length l3.length) := by
  intro l1
  induction l1 with
  | nil => intro l2 l3; simp [List.zipWith3]
  | cons a l1 ih =>
    intro l2 l3
    cases l2 with
    | nil => simp [List.zipWith3]
    | cons b l2 =>
      cases l3 with
      | nil => simp [List.zipWith3]
      | cons c l3 =>
        show (List.zipWith3 f l1 l2 l3).length + 1 = _
        rw [ih l2 l3]
        show min l1.length (min l2.length l3.length) + 1 =
          min (l1.length + 1) (min (l2.length + 1) (l3.length + 1))
        omega

theorem blas_fill_length (v : List ℚ) (a : ℚ) :
    (blas_fill v a).length = v.length := List.length_map _ _

theorem blas_axpby_length (x y : List ℚ) (a b : ℚ) :
    (blas_axpby x y a b).length = min x.length y.length :=
  List.length_zipWith _ _ _

theorem blas_axpbypcz_length (x y z : List ℚ) (a b c : ℚ) :
    (blas_axpbypcz x y z a b c).length = min x.length (min y.length z.length) :=
  zipWith3_length _ _ _ _

theorem bicgstab_loop_finish_conv {σ : Type} (A : LinearOperator) (b : List ℚ)
    (sc : StoppingCriteria σ) (st : σ) (fuel k : ℕ) (S : BState)
    (h1 : sc.has_converged st A S.x b S.r_norm_sq = true) :
    bicgstab_loop A b sc st (fuel + 1) k S = .finished ⟨S, k, .converged⟩ := by
  unfold bicgstab_loop
  simp [h1]

theorem bicgstab_loop_finish_limit {σ : Type} (A : LinearOperator) (b : List ℚ)
    (sc : StoppingCriteria σ) (st : σ) (fuel k : ℕ) (S : BState)
    (h1 : sc.has_converged st A S.x b S.r_norm_sq = false)
    (h2 : sc.has_reached_iteration_limit st k = true) :
    bicgstab_loop A b sc st (fuel + 1) k S = .finished ⟨S, k, .iterationLimit⟩ := by
  unfold bicgstab_loop
  simp [h1, h2]

theorem bicgstab_loop_step {σ : Type} (A : LinearOperator) (b : List ℚ)
    (sc : StoppingCriteria σ) (st : σ) (fuel k : ℕ) (S : BState)
    (h1 : sc.has_converged st A S.x b S.r_norm_sq = false)
    (h2 : sc.has_reached_iteration_limit st k = false) :
    bicgstab_loop A b sc st (fuel + 1) k S =
      bicgstab_loop A b sc st fuel (k + 1) (bicgstab_iteration A S) := by
  have hstep : bicgstab_loop A b sc st (fuel + 1) k S =
      if sc.has_converged st A S.x b S.r_norm_sq then
        .finished ⟨S, k, .converged⟩
      else if sc.has_reached_iteration_limit st k then
        .finished ⟨S, k, .iterationLimit⟩
      else bicgstab_loop A b sc st fuel (k + 1) (bicgstab_iteration A S) := rfl
  rw [hstep]
  simp [h1, h2]

theorem bicgstab_iteration_lengths (A : LinearOperator)
    (hA : ∀ u v : List ℚ, (A.spmv u v).length = A.num_rows) (S : BState)
    (hx : S.x.length = A.num_rows) (hr : S.r.length = A.num_rows)
    (hp : S.p.length = A.num_rows) (hrs : S.r_star.length = A.num_rows) :
    (bicgstab_iteration A S).x.length = A.num_rows ∧
    (bicgstab_iteration A S).r.length = A.num_rows ∧
    (bicgstab_iteration A S).p.length = A.num_rows ∧
    (bicgstab_iteration A S).r_star.length = A.num_rows ∧
    (bicgstab_iteration A S).s.length = A.num_rows ∧
    (bicgstab_iteration A S).Mp.length = A.num_rows ∧
    (bicgstab_iteration A S).AMp.length = A.num_rows ∧
    (bicgstab_iteration A S).Ms.length = A.num_rows ∧
    (bicgstab_iteration A S).AMs.length = A.num_rows := by
  unfold bicgstab_iteration
  simp only [blas_copy]
  refine ⟨?_, ?_, ?_, ?_, ?_, ?_, ?_, ?_, ?_⟩ <;>
    simp [blas_axpbypcz_length, blas_axpby_length, blas_fill_length, hA, hx,
      hr, hp, hrs]

theorem bicgstab_loop_lengths {σ : Type} (A : LinearOperator) (b : List ℚ)
    (sc : StoppingCriteria σ) (st : σ)
    (hA : ∀ u v : List ℚ, (A.spmv u v).length = A.num_rows) :
    ∀ (fuel k : ℕ) (S : BState) (res : BResult),
      S.x.length = A.num_rows → S.r.length = A.num_rows →
      S.p.length = A.num_rows → S.r_star.length = A.num_rows →
      S.s.length = A.num_rows → S.Mp.length = A.num_rows →
      S.AMp.length = A.num_rows → S.Ms.length = A.num_rows →
      S.AMs.length = A.num_rows →
      bicgstab_loop A b sc st fuel k S = .finished res →
      res.state.x.length = A.num_rows ∧ res.state.r.length = A.num_rows ∧
      res.state.p.length = A.num_rows ∧ res.state.r_star.length = A.num_rows ∧
      res.state.s.length = A.num_rows ∧ res.state.Mp.length = A.num_rows ∧
      res.state.AMp.length = A.num_rows ∧ res.state.Ms.length = A.num_rows ∧
      res.state.AMs.length = A.num_rows := by
  intro fuel
  induction fuel with
  | zero =>
    intro k S res _ _ _ _ _ _ _ _ _ h
    exact absurd h (by simp [bicgstab_loop])
  | succ f ih =>
    intro k S res hx hr hp hrs hs hMp hAMp hMs hAMs h
    unfold bicgstab_loop at h
    split at h
    next =>
      injection h with h'
      subst h'
      exact ⟨hx, hr, hp, hrs, hs, hMp, hAMp, hMs, hAMs⟩
    next =>
      split at h
      next =>
        injection h with h'
        subst h'
        exact ⟨hx, hr, hp, hrs, hs, hMp, hAMp, hMs, hAMs⟩
      next =>
        have hit := bicgstab_iteration_lengths A hA S hx hr hp hrs
        exact ih (k + 1) (bicgstab_iteration A S) res hit.1 hit.2.1 hit.2.2.1
          hit.2.2.2.1 hit.2.2.2.2.1 hit.2.2.2.2.2.1 hit.2.2.2.2.2.2.1
          hit.2.2.2.2.2.2.2.1 hit.2.2.2.2.2.2.2.2 h

theorem dotc_replicate_zero_right :
    ∀ (n : ℕ) (v : List ℚ), blas_dotc v (List.replicate n 0) = 0 := by
  intro n
  induction n with
  | zero => intro v; cases v <;> rfl
  | succ m ih =>
    intro v
    cases v with
    | nil => rfl
    | cons a v =>
      show (a * (0 : ℚ) + (List.zipWith (fun a b => a * b) v
        (List.replicate m 0)).sum) = 0
      have := ih v
      unfold blas_dotc at this
      rw [this]
      simp

theorem sum_map_flatMap {β γ M : Type} [AddCommMonoid M] (l : List β)
    (f : β → List γ) (g : γ → M) :
    ((l.flatMap f).map g).sum = (l.map (fun a => ((f a).map g).sum)).sum := by
  induction l with
  | nil => rfl
  | cons a l ih =>
    simp [List.flatMap_cons, List.map_append, List.sum_append, ih]

theorem sum_if_row_eq {α : Type} [CommRing α] (L : List (Triple α))
    (g : Triple α → α) (i : ℕ) (htag : ∀ t ∈ L, t.1 = i) :
    (L.map (fun t => if t.1 = i then g t else 0)).sum = (L.map g).sum := by
  have hcongr : ∀ t ∈ L, (if t.1 = i then g t else 0) = g t := by
    intro t ht
    rw [if_pos (htag t ht)]
  rw [List.map_congr_left hcongr]

theorem sum_if_row_ne {α : Type} [CommRing α] (L : List (Triple α))
    (g : Triple α → α) (i i' : ℕ) (htag : ∀ t ∈ L, t.1 = i') (hne : i' ≠ i) :
    (L.map (fun t => if t.1 = i then g t else 0)).sum = 0 := by
  apply List.sum_eq_zero
  intro z hz
  obtain ⟨t, ht, rfl⟩ := List.mem_map.mp hz
  rw [if_neg]
  rw [htag t ht]
  exact hne

theorem sum_if_flatMap_rows {α : Type} [CommRing α] (n : ℕ)
    (f : ℕ → List (Triple α)) (g : Triple α → α) (i : ℕ) (hi : i < n)
    (htag : ∀ i', ∀ t ∈ f i', t.1 = i') :
    (((List.range n).flatMap f).map
        (fun t => if t.1 = i then g t else 0)).sum = ((f i).map g).sum := by
  rw [sum_map_flatMap]
  rw [sum_map_range_single
    (fun i' => ((f i').map (fun t => if t.1 = i then g t else 0)).sum) n i hi
    (fun j _ hj => sum_if_row_ne (f j) g i j (htag j) hj)]
  exact sum_if_row_eq (f i) g i (htag i)

theorem csr_rowTriples_tag {α : Type} (m : CSRMatrix α) (i : ℕ) :
    ∀ t ∈ m.rowTriples i, t.1 = i := by
  intro t ht
  unfold CSRMatrix.rowTriples at ht
  obtain ⟨p, _, rfl⟩ := List.mem_map.mp ht
  rfl

theorem ell_rowTriples_tag {α : Type} [CommRing α] (m : ELLMatrix α) (i : ℕ) :
    ∀ t ∈ m.rowTriples i, t.1 = i := by
  intro t ht
  unfold ELLMatrix.rowTriples at ht
  obtain ⟨s, _, ht2⟩ := List.mem_flatMap.mp ht
  split at ht2
  · rcases List.mem_singleton.mp ht2 with rfl
    rfl
  · simp at ht2

theorem ell_triples_eq {α : Type} [CommRing α] (m : ELLMatrix α) :
    m.triples = (List.range m.num_rows).flatMap m.rowTriples := rfl

theorem csr_row_sum {α : Type} [CommRing α] (m : CSRMatrix α) (x : List α)
    (i : ℕ) (hi : i < m.num_rows) :
    (m.triples.map
        (fun t => if t.1 = i then t.2.2 * x.getD t.2.1 0 else 0)).sum =
      ((m.rowTriples i).map (fun t => t.2.2 * x.getD t.2.1 0)).sum := by
  show (((List.range m.num_rows).flatMap m.rowTriples).map
      (fun t => if t.1 = i then t.2.2 * x.getD t.2.1 0 else 0)).sum = _
  exact sum_if_flatMap_rows m.num_rows m.rowTriples _ i hi
    (csr_rowTriples_tag m)

theorem ell_row_sum {α : Type} [CommRing α] (m : ELLMatrix α) (x : List α)
    (i : ℕ) (hi : i < m.num_rows) :
    (m.triples.map
        (fun t => if t.1 = i then t.2.2 * x.getD t.2.1 0 else 0)).sum =
      ((List.range m.num_entries_per_row).map (fun s =>
        if 0 ≤ m.column_indices.getD (s * m.stride + i) (-1) then
          m.values.getD (s * m.stride + i) 0 *
            x.getD (m.column_indices.getD (s * m.stride + i) (-1)).toNat 0
        else 0)).sum := by
  rw [ell_triples_eq]
  rw [sum_if_flatMap_rows m.num_rows m.rowTriples _ i hi
    (ell_rowTriples_tag m)]
  unfold ELLMatrix.rowTriples
  rw [sum_map_flatMap]
  apply congrArg List.sum
  apply List.map_congr_left
  intro s _
  split
  · simp
  · simp

theorem dia_row_sum {α : Type} [CommRing α] (m : DIAMatrix α) (x : List α)
    (i : ℕ) (hi : i < m.num_rows) :
    (m.triples.map
        (fun t => if t.1 = i then t.2.2 * x.getD t.2.1 0 else 0)).sum =
      ((List.range m.diagonal_offsets.length).map (fun k =>
        if 0 ≤ (i : ℤ) + m.diagonal_offsets.getD k 0 ∧
            (i : ℤ) + m.diagonal_offsets.getD k 0 < (m.num_cols : ℤ) then
          m.values.getD (k * m.stride + i) 0 *
            x.getD ((i : ℤ) + m.diagonal_offsets.getD k 0).toNat 0
        else 0)).sum := by
  unfold DIAMatrix.triples
  rw [sum_map_flatMap]
  apply congrArg List.sum
  apply List.map_congr_left
  intro k _
  rw [sum_map_flatMap]
  rw [sum_map_range_single _ m.num_rows i hi ?hz]
  case hz =>
    intro j _ hj
    split
    · simp [hj]
    · simp
  split
  · simp
  · simp

/-- Claim C2: for every matrix `A` in any of the five supported formats
(under the format invariants of spec 3: stored positions inside the shape,
and for HYB the two portions carrying one shape), every `x` of length
`num_cols` and every `y` of length `num_rows`, `spmv(A, x, y)` sets `y` to
exactly `A · x`: the result is the mathematical matrix–vector product of
the represented matrix, has length `num_rows`, and is independent of the
prior contents of `y`. -/
theorem spmv_contract {α : Type} [CommRing α] (m : AnyMat α) (x y y' : List α)
    (hwf : m.WF) (hal : m.portionsAligned) (hx : x.length = m.num_cols)
    (hy : y.length = m.num_rows) :
    spmv m x y = m.matVec x ∧
    (spmv m x y).length = m.num_rows ∧
    spmv m x y = spmv m x y' := by
  cases m with
  | coo A =>
    refine ⟨?_, by simp [spmv, spmv_coo, AnyMat.num_rows], rfl⟩
    simp only [spmv, AnyMat.matVec, AnyMat.num_rows, AnyMat.num_cols,
      AnyMat.entry, AnyMat.triples, spmv_coo]
    apply List.map_congr_left
    intro i _
    exact sum_row_eq_matVec x A.num_cols A.triples
      (fun t ht => (hwf t ht).2) i
  | csr A =>
    refine ⟨?_, by simp [spmv, spmv_csr, AnyMat.num_rows], rfl⟩
    simp only [spmv, AnyMat.matVec, AnyMat.num_rows, AnyMat.num_cols,
      AnyMat.entry, AnyMat.triples, spmv_csr]
    apply List.map_congr_left
    intro i hi
    rw [← csr_row_sum A x i (List.mem_range.mp hi)]
    exact sum_row_eq_matVec x A.num_cols A.triples
      (fun t ht => (hwf t ht).2) i
  | ell A =>
    refine ⟨?_, by simp [spmv, spmv_ell, AnyMat.num_rows], rfl⟩
    simp only [spmv, AnyMat.matVec, AnyMat.num_rows, AnyMat.num_cols,
      AnyMat.entry, AnyMat.triples, spmv_ell]
    apply List.map_congr_left
    intro i hi
    rw [← ell_row_sum A x i (List.mem_range.mp hi)]
    exact sum_row_eq_matVec x A.num_cols A.triples
      (fun t ht => (hwf t ht).2) i
  | dia A =>
    refine ⟨?_, by simp [spmv, spmv_dia, AnyMat.num_rows], rfl⟩
    simp only [spmv, AnyMat.matVec, AnyMat.num_rows, AnyMat.num_cols,
      AnyMat.entry, AnyMat.triples, spmv_dia]
    apply List.map_congr_left
    intro i hi
    rw [← dia_row_sum A x i (List.mem_range.mp hi)]
    exact sum_row_eq_matVec x A.num_cols A.triples
      (fun t ht => (hwf t ht).2) i
  | hyb A =>
    have hrows : A.coo.num_rows = A.ell.num_rows := hal
    refine ⟨?_, by simp [spmv, spmv_hyb, spmv_coo_into, AnyMat.num_rows,
      hrows], rfl⟩
    simp only [spmv, AnyMat.matVec, AnyMat.num_rows, AnyMat.num_cols,
      AnyMat.entry, AnyMat.triples, HYBMatrix.triples, spmv_hyb,
      spmv_coo_into]
    rw [hrows]
    apply List.map_congr_left
    intro i hi
    have hi' : i < A.ell.num_rows := List.mem_range.mp hi
    rw [show spmv_ell A.ell x y = (List.range A.ell.num_rows).map (fun r =>
      ((List.range A.ell.num_entries_per_row).map (fun s =>
        if 0 ≤ A.ell.column_indices.getD (s * A.ell.stride + r) (-1) then
          A.ell.values.getD (s * A.ell.stride + r) 0 *
            x.getD
              (A.ell.column_indices.getD (s * A.ell.stride + r) (-1)).toNat 0
        else 0)).sum) from rfl]
    rw [getD_map_range _ (0 : α) hi']
    rw [← ell_row_sum A.ell x i hi']
    rw [← List.sum_append, ← List.map_append]
    exact sum_row_eq_matVec x A.ell.num_cols (A.ell.triples ++ A.coo.triples)
      (fun t ht => (hwf t ht).2) i

/-- Witness for C2 at two concrete instances whose hypotheses are
nontrivial: the diagonal matrix `diag(1,2,3,4)` stored in DIA (the spec's
seed test 2, including its expected value `y = (1,2,3,4)` at `x = 1`), and
the HYB conversion of the 4 × 3 example matrix, each with two different
prior contents of `y`. -/
theorem spmv_contract_witness :
    ((AnyMat.dia diagDIA).WF ∧ (AnyMat.dia diagDIA).portionsAligned ∧
      ([1, 1, 1, 1] : List ℤ).length = (AnyMat.dia diagDIA).num_cols ∧
      ([9, 9, 9, 9] : List ℤ).length = (AnyMat.dia diagDIA).num_rows ∧
      (spmv (AnyMat.dia diagDIA) [1, 1, 1, 1] [9, 9, 9, 9] =
          (AnyMat.dia diagDIA).matVec [1, 1, 1, 1] ∧
        (spmv (AnyMat.dia diagDIA) [1, 1, 1, 1] [9, 9, 9, 9]).length =
          (AnyMat.dia diagDIA).num_rows ∧
        spmv (AnyMat.dia diagDIA) [1, 1, 1, 1] [9, 9, 9, 9] =
          spmv (AnyMat.dia diagDIA) [1, 1, 1, 1] [3, 3, 3, 3]) ∧
      spmv (AnyMat.dia diagDIA) [1, 1, 1, 1] [9, 9, 9, 9] = [1, 2, 3, 4]) ∧
    ((AnyMat.hyb (coo_to_hyb exampleCOO)).WF ∧
      (AnyMat.hyb (coo_to_hyb exampleCOO)).portionsAligned ∧
      ([1, 1, 1] : List ℤ).length =
        (AnyMat.hyb (coo_to_hyb exampleCOO)).num_cols ∧
      ([5, 5, 5, 5] : List ℤ).length =
        (AnyMat.hyb (coo_to_hyb exampleCOO)).num_rows ∧
      (spmv (AnyMat.hyb (coo_to_hyb exampleCOO)) [1, 1, 1] [5, 5, 5, 5] =
          (AnyMat.hyb (coo_to_hyb exampleCOO)).matVec [1, 1, 1] ∧
        (spmv (AnyMat.hyb (coo_to_hyb exampleCOO)) [1, 1, 1]
            [5, 5, 5, 5]).length =
          (AnyMat.hyb (coo_to_hyb exampleCOO)).num_rows ∧
        spmv (AnyMat.hyb (coo_to_hyb exampleCOO)) [1, 1, 1] [5, 5, 5, 5] =
          spmv (AnyMat.hyb (coo_to_hyb exampleCOO)) [1, 1, 1] [7, 7, 7, 7])) :=
  ⟨⟨by decide, by decide, by decide, by decide,
    spmv_contract (AnyMat.dia diagDIA) [1, 1, 1, 1] [9, 9, 9, 9] [3, 3, 3, 3]
      (by decide) (by decide) (by decide) (by decide),
    by decide⟩,
   ⟨by decide, by decide, by decide, by decide,
    spmv_contract (AnyMat.hyb (coo_to_hyb exampleCOO)) [1, 1, 1] [5, 5, 5, 5]
      [7, 7, 7, 7] (by decide) (by decide) (by decide) (by decide)⟩⟩

/-- Claim C3 (counterexample): one pass of the `bicgstab` loop body makes
four dot-product calls, so its BLAS-1 reduction count is five, not the
claimed four (`dot`, `dot`, `dot`, `nrm2`). -/
theorem bicgstab_calls_cex :
    bicgstab_iteration_calls.count BlasCall.dotc ≠ 3 ∧
    bicgstab_iteration_calls.countP (fun c => c.isReduction) ≠ 4 := by
  decide

/-- Claim C3 (amended): every iteration of the `bicgstab` main loop performs
exactly two SpMV calls and exactly five BLAS-1 reduction calls: four dot
products (the alpha denominator, the omega numerator and denominator, and
the beta numerator) and one 2-norm. -/
theorem bicgstab_calls_count :
    bicgstab_iteration_calls.count BlasCall.spmv = 2 ∧
    bicgstab_iteration_calls.count BlasCall.dotc = 4 ∧
    bicgstab_iteration_calls.count BlasCall.nrm2 = 1 ∧
    bicgstab_iteration_calls.countP (fun c => c.isReduction) = 5 := by
  decide

/-- Claim C5 (counterexample): for the dense all-ones 4 × 4 matrix stored
directly as a DIA container, `convert(coo, ·)` succeeds, but converting the
result back to the source DIA format reports `FormatConversionError`
(`none`): the claim's conclusion fails although the forward conversion
succeeded. -/
theorem convert_roundtrip_cex :
    (convert 3 2 Fmt.coo (AnyMat.dia denseDIA)).isSome = true ∧
    (convert 3 2 Fmt.coo (AnyMat.dia denseDIA)).bind
      (fun m => convert 3 2 Fmt.dia m) = none := by
  decide

/-- Claim C5 (amended): whenever `convert(dst, src)` succeeds **and**
converting the result back to the source format also succeeds, the round
trip is element-wise equal to the original with the same shape. -/
theorem convert_roundtrip {α : Type} [CommRing α] (θe θd : ℕ)
    (m m' m'' : AnyMat α) (dst : Fmt) (hwf : m.WF)
    (h1 : convert θe θd dst m = some m')
    (h2 : convert θe θd m.fmt m' = some m'') :
    m''.num_rows = m.num_rows ∧ m''.num_cols = m.num_cols ∧
      ∀ i j, m''.entry i j = m.entry i j := by
  have hp1 := convert_preserves θe θd dst m m' hwf h1
  have hp2 := convert_preserves θe θd m.fmt m' m'' hp1.2.2.2 h2
  refine ⟨by rw [hp2.1, hp1.1], by rw [hp2.2.1, hp1.2.1], ?_⟩
  intro i j
  rw [hp2.2.2.1 i j, hp1.2.2.1 i j]

/-- Witness for C5 (amended) on the COO → CSR → COO round trip of the 4 × 3
example matrix. -/
theorem convert_roundtrip_witness :
    (AnyMat.coo exampleCOO).WF ∧
    convert 3 2 Fmt.csr (AnyMat.coo exampleCOO) =
      some (AnyMat.csr (coo_to_csr exampleCOO)) ∧
    convert 3 2 (AnyMat.coo exampleCOO).fmt
      (AnyMat.csr (coo_to_csr exampleCOO)) = some (AnyMat.coo exampleCOO) ∧
    (AnyMat.coo exampleCOO).entry 0 0 = (AnyMat.coo exampleCOO).entry 0 0 :=
  ⟨by decide, by decide, by decide,
    (convert_roundtrip 3 2 (AnyMat.coo exampleCOO)
      (AnyMat.csr (coo_to_csr exampleCOO)) (AnyMat.coo exampleCOO) Fmt.csr
      (by decide) (by decide) (by decide)).2.2 0 0⟩

/-- Claim C6: conversion to ELL fails with `FormatConversionError` (`none`)
whenever the maximum row length exceeds `θ` times the average row length
(`max · num_rows > θ · num_entries`); in particular the COO matrix with one
row of 1000 nonzeros and 1000 rows of one nonzero fails for the default
threshold `θ = 3`. -/
theorem coo_to_ell_threshold_failure :
    (∀ (θ : ℕ) (c : COOMatrix ℤ),
      maxRowLength c * c.num_rows > θ * c.num_entries →
      coo_to_ell θ c = none) ∧
    coo_to_ell 3 pathologicalCOO = none := by
  have hgen : ∀ (θ : ℕ) (c : COOMatrix ℤ),
      maxRowLength c * c.num_rows > θ * c.num_entries →
      coo_to_ell θ c = none := by
    intro θ c h
    unfold coo_to_ell
    rw [if_pos h]
  refine ⟨hgen, hgen 3 pathologicalCOO ?_⟩
  have h1000 : (rowEntries pathologicalCOO.triples 0).length = 1000 :=
    of_decide_eq_true rfl
  have hnum : pathologicalCOO.num_rows = 1001 := rfl
  have hnnz : pathologicalCOO.num_entries = 2000 := rfl
  have hmax := maxRowLength_ge pathologicalCOO
    (show 0 < pathologicalCOO.num_rows from hnum ▸ Nat.succ_pos 1000)
  rw [h1000] at hmax
  rw [hnum, hnnz]
  have hfin : 3 * 2000 < 1000 * 1001 := by norm_num
  exact lt_of_lt_of_le hfin (Nat.mul_le_mul_right _ hmax)

/-- Witness for C6's general part at a small instance: the example matrix
with threshold 1 (max row length 3, 3·4 > 1·6). -/
theorem coo_to_ell_threshold_failure_witness :
    maxRowLength exampleCOO * exampleCOO.num_rows > 1 * exampleCOO.num_entries ∧
    coo_to_ell 1 exampleCOO = none :=
  ⟨by decide, coo_to_ell_threshold_failure.1 1 exampleCOO (by decide)⟩

/-- Claim C7: the 4 × 3 example matrix `[[10,0,20],[0,0,0],[0,0,30],
[40,50,60]]` in COO multiplied against `x = (1,1,1)` gives
`y = (30,0,30,150)`, and the same result is produced after conversion to
CSR, to ELL (which succeeds with the default threshold 3), and to HYB. -/
theorem example_spmv_all_formats :
    spmv_coo exampleCOO [1, 1, 1] [0, 0, 0, 0] = [30, 0, 30, 150] ∧
    spmv_csr (coo_to_csr exampleCOO) [1, 1, 1] [0, 0, 0, 0] =
      [30, 0, 30, 150] ∧
    (coo_to_ell 3 exampleCOO).map
      (fun e => spmv_ell e [1, 1, 1] [0, 0, 0, 0]) = some [30, 0, 30, 150] ∧
    spmv_hyb (coo_to_hyb exampleCOO) [1, 1, 1] [0, 0, 0, 0] =
      [30, 0, 30, 150] := by
  refine ⟨by decide, by decide, by decide, by decide⟩

/-- Claim C8 (counterexample): the shape-and-entry-count constructor of the
usage example in `src/cusp/coo_matrix.h` — `coo_matrix A(4,3,6)` — yields
zero-initialized index arrays whose `(row, column)` pairs are not
lexicographically strictly increasing. -/
theorem coo_ctor_sized_not_lexSorted :
    ¬ (coo_matrix_ctor_sized ℤ 4 3 6).lexSorted := by
  decide

/-- Claim C8 (amended): strict lexicographic sortedness holds after the
default constructor, and after the shape-and-entry-count constructor exactly
when at most one entry is allocated; with two or more entries the
zero-initialized index pairs are duplicates, so sortedness is the documented
caller obligation, not a constructor postcondition. -/
theorem coo_ctor_lexSorted_iff :
    (coo_matrix_ctor_default ℤ).lexSorted ∧
    ∀ rows cols nnz : ℕ,
      (coo_matrix_ctor_sized ℤ rows cols nnz).lexSorted ↔ nnz ≤ 1 := by
  constructor
  · decide
  · intro rows cols nnz
    unfold COOMatrix.lexSorted coo_matrix_ctor_sized
    rw [List.zip_replicate, min_self, List.pairwise_replicate]
    simp

/-- Claim C9: `bicgstab` asserts `A.num_rows == A.num_cols` before any
computation — every call with a non-square operator fails the assertion —
and under the square precondition the assertion passes and every workspace
vector carried by the solver state has length `A.num_rows` whenever the
solver returns. -/
theorem bicgstab_square_assertion {σ : Type} (A : LinearOperator)
    (x b : List ℚ) (sc : StoppingCriteria σ) (st : σ) (fuel : ℕ) :
    (A.num_rows ≠ A.num_cols →
      bicgstab A x b sc st fuel = .assertionFailure) ∧
    (A.num_rows = A.num_cols →
      (∀ u v : List ℚ, (A.spmv u v).length = A.num_rows) →
      x.length = A.num_rows → b.length = A.num_rows →
      ∀ res : BResult, bicgstab A x b sc st fuel = .finished res →
        res.state.x.length = A.num_rows ∧ res.state.r.length = A.num_rows ∧
        res.state.p.length = A.num_rows ∧
        res.state.r_star.length = A.num_rows ∧
        res.state.s.length = A.num_rows ∧ res.state.Mp.length = A.num_rows ∧
        res.state.AMp.length = A.num_rows ∧
        res.state.Ms.length = A.num_rows ∧
        res.state.AMs.length = A.num_rows) := by
  constructor
  · intro hne
    unfold bicgstab
    rw [if_neg hne]
  · intro hsq hA hx hb res h
    unfold bicgstab at h
    rw [if_pos hsq] at h
    have hrlen : (blas_axpby b
        (A.spmv x (blas_fill (List.replicate A.num_rows 0) 0)) 1
        (-1)).length = A.num_rows := by
      rw [blas_axpby_length, hb, hA]
      simp
    refine bicgstab_loop_lengths A b sc (sc.init st A x b) hA fuel 0 _ res
      hx hrlen hrlen hrlen ?_ ?_ ?_ ?_ ?_ h
    · exact List.length_replicate _ _
    · exact List.length_replicate _ _
    · exact List.length_replicate _ _
    · exact List.length_replicate _ _
    · exact List.length_replicate _ _

/-- Witness for C9's assertion branch at a concrete 1 × 2 operator. -/
theorem bicgstab_square_assertion_witness :
    nonsquareOperator.num_rows ≠ nonsquareOperator.num_cols ∧
    bicgstab nonsquareOperator [0] [0] default_stopping_criteria
      ⟨1/2, 5, 0⟩ 3 = .assertionFailure :=
  ⟨by decide, (bicgstab_square_assertion nonsquareOperator [0] [0]
    default_stopping_criteria ⟨1/2, 5, 0⟩ 3).1 (by decide)⟩

/-- Claim C10: when the stopping criterion reports convergence on the norm
of the initial residual `b − A·x₀`, `bicgstab` executes zero iterations of
the update loop and returns with `x` equal to the initial guess: the
returned state's `x` field is exactly the argument `x`, the iteration count
is 0 and the status is convergence. -/
theorem bicgstab_zero_iterations {σ : Type} (A : LinearOperator)
    (x b : List ℚ) (sc : StoppingCriteria σ) (st : σ) (fuel : ℕ)
    (hsq : A.num_rows = A.num_cols)
    (hconv : sc.has_converged (sc.init st A x b) A x b
      (blas_nrm2sq (blas_axpby b
        (A.spmv x (blas_fill (List.replicate A.num_rows 0) 0)) 1
        (-1))) = true) :
    bicgstab A x b sc st (fuel + 1) =
      .finished
        ⟨⟨x,
          blas_axpby b
            (A.spmv x (blas_fill (List.replicate A.num_rows 0) 0)) 1 (-1),
          blas_copy (blas_axpby b
            (A.spmv x (blas_fill (List.replicate A.num_rows 0) 0)) 1 (-1)),
          blas_copy (blas_axpby b
            (A.spmv x (blas_fill (List.replicate A.num_rows 0) 0)) 1 (-1)),
          List.replicate A.num_rows 0, List.replicate A.num_rows 0,
          List.replicate A.num_rows 0, List.replicate A.num_rows 0,
          List.replicate A.num_rows 0,
          blas_dotc
            (blas_copy (blas_axpby b
              (A.spmv x (blas_fill (List.replicate A.num_rows 0) 0)) 1 (-1)))
            (blas_axpby b
              (A.spmv x (blas_fill (List.replicate A.num_rows 0) 0)) 1 (-1)),
          blas_nrm2sq (blas_axpby b
            (A.spmv x (blas_fill (List.replicate A.num_rows 0) 0)) 1 (-1))⟩,
        0, .converged⟩ := by
  unfold bicgstab
  rw [if_pos hsq]
  exact bicgstab_loop_finish_conv A b sc (sc.init st A x b) fuel 0 _ hconv

/-- Witness for C10 on the 1 × 1 identity with x₀ = b = (1): the initial
residual is zero, the criterion converges immediately, and the solver
returns after zero iterations with x unchanged. -/
theorem bicgstab_zero_iterations_witness :
    (identityOperator 1).num_rows = (identityOperator 1).num_cols ∧
    default_stopping_criteria.has_converged
      (default_stopping_criteria.init ⟨1/2, 5, 0⟩ (identityOperator 1)
        [1] [1]) (identityOperator 1) [1] [1]
      (blas_nrm2sq (blas_axpby [1]
        ((identityOperator 1).spmv [1]
          (blas_fill (List.replicate (identityOperator 1).num_rows 0) 0)) 1
        (-1))) = true ∧
    bicgstab (identityOperator 1) [1] [1] default_stopping_criteria
      ⟨1/2, 5, 0⟩ 1 =
      .finished
        ⟨⟨[1],
          blas_axpby [1]
            ((identityOperator 1).spmv [1]
              (blas_fill (List.replicate (identityOperator 1).num_rows 0) 0))
            1 (-1),
          blas_copy (blas_axpby [1]
            ((identityOperator 1).spmv [1]
              (blas_fill (List.replicate (identityOperator 1).num_rows 0) 0))
            1 (-1)),
          blas_copy (blas_axpby [1]
            ((identityOperator 1).spmv [1]
              (blas_fill (List.replicate (identityOperator 1).num_rows 0) 0))
            1 (-1)),
          List.replicate (identityOperator 1).num_rows 0,
          List.replicate (identityOperator 1).num_rows 0,
          List.replicate (identityOperator 1).num_rows 0,
          List.replicate (identityOperator 1).num_rows 0,
          List.replicate (identityOperator 1).num_rows 0,
          blas_dotc
            (blas_copy (blas_axpby [1]
              ((identityOperator 1).spmv [1]
                (blas_fill (List.replicate (identityOperator 1).num_rows 0)
                  0)) 1 (-1)))
            (blas_axpby [1]
              ((identityOperator 1).spmv [1]
                (blas_fill (List.replicate (identityOperator 1).num_rows 0)
                  0)) 1 (-1)),
          blas_nrm2sq (blas_axpby [1]
            ((identityOperator 1).spmv [1]
              (blas_fill (List.replicate (identityOperator 1).num_rows 0) 0))
            1 (-1))⟩,
        0, .converged⟩ := by
  have hconv : default_stopping_criteria.has_converged
      (default_stopping_criteria.init ⟨1/2, 5, 0⟩ (identityOperator 1)
        [1] [1]) (identityOperator 1) [1] [1]
      (blas_nrm2sq (blas_axpby [1]
        ((identityOperator 1).spmv [1]
          (blas_fill (List.replicate (identityOperator 1).num_rows 0) 0)) 1
        (-1))) = true := by
    have ha : ([1] : List ℚ).getD 0 0 = 1 := rfl
    have hb : ([1] : List ℚ)[0] = 1 := rfl
    norm_num [default_stopping_criteria, identityOperator, spmv_coo,
      cooIdentity, COOMatrix.triples, blas_fill, blas_axpby, blas_nrm2sq,
      blas_dotc, blas_copy, ha, hb, List.range_succ_eq_map, List.range_zero, List.map_cons,
      List.map_nil, List.zip_cons_cons, List.zip_nil_right, List.zip_nil_left,
      List.zipWith_cons_cons, List.zipWith_nil_right, List.zipWith_nil_left,
      List.sum_cons, List.sum_nil, inv_zero, div_zero, zero_div,
      List.replicate]
  exact ⟨rfl, hconv,
    bicgstab_zero_iterations (identityOperator 1) [1] [1]
      default_stopping_criteria ⟨1/2, 5, 0⟩ 0 rfl hconv⟩

/-- Claim C1 (counterexample): on the rotation matrix `[[0,1],[-1,0]]` with
`b = (1,0)` and `x₀ = 0`, the alpha denominator `(AMp, r*)` is exactly zero
at the first iteration, yet the solver divides by it, performs that
iteration and the next, and returns via the iteration limit: no
BreakdownError is reported — the code has no breakdown exit at all. -/
theorem bicgstab_no_breakdown_cex :
    blas_dotc [1, 0] (rotationOperator.spmv (blas_copy [1, 0])
      (blas_fill [0, 0] 0)) = 0 ∧
    bicgstab rotationOperator [0, 0] [1, 0] default_stopping_criteria
      ⟨1/100, 1, 0⟩ 3 =
      .finished ⟨⟨[0, 0], [1, 0], [1, 0], [1, 0], [1, 0], [1, 0], [0, -1],
        [1, 0], [0, -1], 1, 1⟩, 1, .iterationLimit⟩ := by
  have hden : blas_dotc ([1, 0] : List ℚ) (rotationOperator.spmv
      (blas_copy [1, 0]) (blas_fill [0, 0] 0)) = 0 := by
    have ha : ([1, 0] : List ℚ).getD 0 0 = 1 := rfl
    have hb : ([1, 0] : List ℚ)[0] = 1 := rfl
    have hc : ([1, 0] : List ℚ).getD 1 0 = 0 := rfl
    have hd : ([1, 0] : List ℚ)[1] = 0 := rfl
    norm_num [rotationOperator, spmv_coo, rotationCOO, COOMatrix.triples,
      blas_dotc, blas_copy, blas_fill, ha, hb, hc, hd, List.range_succ_eq_map, List.range_zero, List.map_cons,
      List.map_nil, List.zip_cons_cons, List.zip_nil_right, List.zip_nil_left,
      List.zipWith_cons_cons, List.zipWith_nil_right, List.zipWith_nil_left,
      List.sum_cons, List.sum_nil, inv_zero, div_zero, zero_div,
      List.replicate]
  refine ⟨hden, ?_⟩
  have hmain : bicgstab rotationOperator [0, 0] [1, 0]
      default_stopping_criteria ⟨1/100, 1, 0⟩ 3 =
      bicgstab_loop rotationOperator [1, 0] default_stopping_criteria
        ⟨1/100, 1, 1⟩ 3 0
        ⟨[0, 0], [1, 0], [1, 0], [1, 0], [0, 0], [0, 0], [0, 0], [0, 0],
          [0, 0], 1, 1⟩ := by
    have ha : ([0, 0] : List ℚ).getD 0 0 = 0 := rfl
    have hb : ([0, 0] : List ℚ)[0] = 0 := rfl
    have hc : ([0, 0] : List ℚ).getD 1 0 = 0 := rfl
    have hd : ([0, 0] : List ℚ)[1] = 0 := rfl
    norm_num [bicgstab, default_stopping_criteria, rotationOperator,
      spmv_coo, rotationCOO, COOMatrix.triples, blas_fill, blas_copy,
      blas_axpby, blas_dotc, blas_nrm2sq, ha, hb, hc, hd, List.range_succ_eq_map, List.range_zero, List.map_cons,
      List.map_nil, List.zip_cons_cons, List.zip_nil_right, List.zip_nil_left,
      List.zipWith_cons_cons, List.zipWith_nil_right, List.zipWith_nil_left,
      List.sum_cons, List.sum_nil, inv_zero, div_zero, zero_div,
      List.replicate]
  have hg1 : default_stopping_criteria.has_converged ⟨1/100, 1, 1⟩
      rotationOperator [0, 0] [1, 0] 1 = false := by
    show decide ((1 : ℚ) < (1/100) ^ 2 * 1) = false
    norm_num
  have hg2 : default_stopping_criteria.has_reached_iteration_limit
      ⟨1/100, 1, 1⟩ 0 = false := by
    show decide ((1 : ℕ) ≤ 0) = false
    decide
  have hiter : bicgstab_iteration rotationOperator
      ⟨[0, 0], [1, 0], [1, 0], [1, 0], [0, 0], [0, 0], [0, 0], [0, 0],
        [0, 0], 1, 1⟩ =
      ⟨[0, 0], [1, 0], [1, 0], [1, 0], [1, 0], [1, 0], [0, -1], [1, 0],
        [0, -1], 1, 1⟩ := by
    have ha : ([1, 0] : List ℚ).getD 0 0 = 1 := rfl
    have hb : ([1, 0] : List ℚ)[0] = 1 := rfl
    have hc : ([1, 0] : List ℚ).getD 1 0 = 0 := rfl
    have hd : ([1, 0] : List ℚ)[1] = 0 := rfl
    have he : ([0, 0] : List ℚ).getD 0 0 = 0 := rfl
    have hg : ([0, 0] : List ℚ)[0] = 0 := rfl
    have hf : ([0, 0] : List ℚ).getD 1 0 = 0 := rfl
    have hh : ([0, 0] : List ℚ)[1] = 0 := rfl
    norm_num [bicgstab_iteration, rotationOperator, spmv_coo, rotationCOO,
      COOMatrix.triples, blas_fill, blas_copy, blas_axpby, blas_axpbypcz,
      blas_dotc, blas_nrm2sq, ha, hb, hc, hd, he, hg, hf, hh, List.range_succ_eq_map, List.range_zero, List.map_cons,
      List.map_nil, List.zip_cons_cons, List.zip_nil_right, List.zip_nil_left,
      List.zipWith_cons_cons, List.zipWith_nil_right, List.zipWith_nil_left,
      List.sum_cons, List.sum_nil, inv_zero, div_zero, zero_div,
      List.replicate]
  have hg3 : default_stopping_criteria.has_converged ⟨1/100, 1, 1⟩
      rotationOperator [0, 0] [1, 0] 1 = false := hg1
  have hg4 : default_stopping_criteria.has_reached_iteration_limit
      ⟨1/100, 1, 1⟩ 1 = true := by
    show decide ((1 : ℕ) ≤ 1) = true
    decide
  rw [hmain,
    bicgstab_loop_step rotationOperator [1, 0] default_stopping_criteria
      ⟨1/100, 1, 1⟩ 2 0
      ⟨[0, 0], [1, 0], [1, 0], [1, 0], [0, 0], [0, 0], [0, 0], [0, 0],
        [0, 0], 1, 1⟩ hg1 hg2,
    hiter]
  exact bicgstab_loop_finish_limit rotationOperator [1, 0]
    default_stopping_criteria ⟨1/100, 1, 1⟩ 1 1
    ⟨[0, 0], [1, 0], [1, 0], [1, 0], [1, 0], [1, 0], [0, -1], [1, 0],
      [0, -1], 1, 1⟩ hg3 hg4

/-- Claim C1 (amended): `bicgstab` performs no breakdown detection — even
when the alpha denominator `dotc(r*, A·M·p)` is zero, as long as the
stopping criterion has not converged and the iteration limit is not
reached, the loop body executes (performing the division by the vanished
denominator) and iteration continues; the only exits of the loop are
convergence and the iteration limit. -/
theorem bicgstab_no_breakdown_detection {σ : Type} (A : LinearOperator)
    (b : List ℚ) (sc : StoppingCriteria σ) (st : σ) (fuel k : ℕ) (S : BState)
    (hden : blas_dotc S.r_star
      (A.spmv (blas_copy S.p) (blas_fill S.AMp 0)) = 0)
    (h1 : sc.has_converged st A S.x b S.r_norm_sq = false)
    (h2 : sc.has_reached_iteration_limit st k = false) :
    bicgstab_loop A b sc st (fuel + 1) k S =
      bicgstab_loop A b sc st fuel (k + 1) (bicgstab_iteration A S) :=
  bicgstab_loop_step A b sc st fuel k S h1 h2

/-- Witness for C1 (amended) at the rotation-matrix state where the alpha
denominator is zero. -/
theorem bicgstab_no_breakdown_detection_witness :
    blas_dotc ([1, 0] : List ℚ) (rotationOperator.spmv (blas_copy [1, 0])
      (blas_fill [0, 0] 0)) = 0 ∧
    default_stopping_criteria.has_converged ⟨1/100, 2, 1⟩ rotationOperator
      [0, 0] [1, 0] 1 = false ∧
    default_stopping_criteria.has_reached_iteration_limit
      ⟨1/100, 2, 1⟩ 0 = false ∧
    bicgstab_loop rotationOperator [1, 0] default_stopping_criteria
      ⟨1/100, 2, 1⟩ 3 0
      ⟨[0, 0], [1, 0], [1, 0], [1, 0], [0, 0], [0, 0], [0, 0], [0, 0],
        [0, 0], 1, 1⟩ =
      bicgstab_loop rotationOperator [1, 0] default_stopping_criteria
        ⟨1/100, 2, 1⟩ 2 1
        (bicgstab_iteration rotationOperator
          ⟨[0, 0], [1, 0], [1, 0], [1, 0], [0, 0], [0, 0], [0, 0], [0, 0],
            [0, 0], 1, 1⟩) := by
  have hden : blas_dotc ([1, 0] : List ℚ)
      (rotationOperator.spmv (blas_copy [1, 0]) (blas_fill [0, 0] 0)) = 0 := by
    have ha : ([1, 0] : List ℚ).getD 0 0 = 1 := rfl
    have hb : ([1, 0] : List ℚ)[0] = 1 := rfl
    have hc : ([1, 0] : List ℚ).getD 1 0 = 0 := rfl
    have hd : ([1, 0] : List ℚ)[1] = 0 := rfl
    norm_num [rotationOperator, spmv_coo, rotationCOO, COOMatrix.triples,
      blas_dotc, blas_copy, blas_fill, ha, hb, hc, hd, List.range_succ_eq_map, List.range_zero, List.map_cons,
      List.map_nil, List.zip_cons_cons, List.zip_nil_right, List.zip_nil_left,
      List.zipWith_cons_cons, List.zipWith_nil_right, List.zipWith_nil_left,
      List.sum_cons, List.sum_nil, inv_zero, div_zero, zero_div,
      List.replicate]
  have h1 : default_stopping_criteria.has_converged ⟨1/100, 2, 1⟩
      rotationOperator [0, 0] [1, 0] 1 = false := by
    show decide ((1 : ℚ) < (1/100) ^ 2 * 1) = false
    norm_num
  have h2 : default_stopping_criteria.has_reached_iteration_limit
      ⟨1/100, 2, 1⟩ 0 = false := by
    show decide ((2 : ℕ) ≤ 0) = false
    decide
  exact ⟨hden, h1, h2,
    bicgstab_no_breakdown_detection rotationOperator [1, 0]
      default_stopping_criteria ⟨1/100, 2, 1⟩ 2 0
      ⟨[0, 0], [1, 0], [1, 0], [1, 0], [0, 0], [0, 0], [0, 0], [0, 0],
        [0, 0], 1, 1⟩ hden h1 h2⟩

/-- Claim C4 (counterexample): with the right-hand side b = 0 — a valid
right-hand side — bicgstab on the identity with x₀ = 0 terminates by the
iteration limit, not by reported convergence: the relative-residual test
`0 < τ²·0` never holds, so "for every right-hand side b" fails at b = 0. -/
theorem bicgstab_identity_zero_rhs_cex :
    bicgstab (identityOperator 1) [0] [0] default_stopping_criteria
      ⟨1/2, 1, 0⟩ 3 =
      .finished ⟨⟨[0], [0], [0], [0], [0], [0], [0], [0], [0], 0, 0⟩, 1,
        .iterationLimit⟩ := by
  norm_num [bicgstab, bicgstab_loop, bicgstab_iteration,
    default_stopping_criteria, identityOperator, spmv_coo, cooIdentity,
    COOMatrix.triples, blas_fill, blas_copy, blas_axpby, blas_axpbypcz,
    blas_dotc, blas_nrm2sq, List.range_succ_eq_map, List.range_zero, List.map_cons,
      List.map_nil, List.zip_cons_cons, List.zip_nil_right, List.zip_nil_left,
      List.zipWith_cons_cons, List.zipWith_nil_right, List.zipWith_nil_left,
      List.sum_cons, List.sum_nil, inv_zero, div_zero, zero_div,
      List.replicate]

/-- One pass of the `bicgstab` loop body, written with its intermediate
quantities named: this is definitionally the same function as
`bicgstab_iteration`, so `bicgstab_alpha`, `bicgstab_s`,
`bicgstab_omega_den` and the rest are exactly the quantities the loop body
computes. -/
theorem bicgstab_iteration_eq (A : LinearOperator) (S : BState) :
    bicgstab_iteration A S =
      { x := bicgstab_x_next A S, r := bicgstab_r_next A S,
        p := bicgstab_p_next A S, r_star := S.r_star, s := bicgstab_s A S,
        Mp := bicgstab_Mp S, AMp := bicgstab_AMp A S, Ms := bicgstab_Ms A S,
        AMs := bicgstab_AMs A S,
        r_r_star_old := blas_dotc S.r_star (bicgstab_r_next A S),
        r_norm_sq := blas_nrm2sq (bicgstab_r_next A S) } := rfl

/-- On a square operator, `bicgstab` is exactly its `while (true)` loop
started at `bicgstab_init_state` with the criterion's captured state and
iteration counter 0. -/
theorem bicgstab_eq_loop_init {σ : Type} (A : LinearOperator) (x b : List ℚ)
    (sc : StoppingCriteria σ) (st : σ) (fuel : ℕ)
    (h : A.num_rows = A.num_cols) :
    bicgstab A x b sc st fuel =
      bicgstab_loop A b sc (sc.init st A x b) fuel 0
        (bicgstab_init_state A x b) := by
  unfold bicgstab bicgstab_init_state
  rw [if_pos h]

/-- Claim C4 (amended): the spec's one-iteration convergence on `A = I`
fails. For `b = 0` the strict relative criterion never fires (see the
counterexample). For every **nonzero** right-hand side `b`, the very first
pass of the loop on the identity with `x₀ = 0` has alpha denominator
`dotc(r*, AMp) = ‖b‖² ≠ 0` and `alpha = 1` exactly, which makes
`s = r − alpha·AMp` exactly the zero vector — so the omega update divides
by `dotc(AMs, AMs) = 0` exactly. These cancellations are float-exact
(`t/t = 1` and `b − 1·b = 0` in IEEE arithmetic as well), so in the
source's floating-point run `omega = 0.0/0.0` is non-finite (spec design
note 9a), `x` becomes non-finite and convergence is never reported; the
theorem proves the exact vanishing that triggers this, independently of
any convention for division by zero. -/
theorem bicgstab_identity_first_iteration_breakdown (n : ℕ) (b : List ℚ)
    (hb : b.length = n) (hb0 : b ≠ List.replicate n 0) :
    bicgstab_alpha_den (identityOperator n)
        (bicgstab_init_state (identityOperator n) (List.replicate n 0) b) =
      blas_nrm2sq b ∧
    blas_nrm2sq b ≠ 0 ∧
    bicgstab_alpha (identityOperator n)
        (bicgstab_init_state (identityOperator n) (List.replicate n 0) b) =
      1 ∧
    bicgstab_s (identityOperator n)
        (bicgstab_init_state (identityOperator n) (List.replicate n 0) b) =
      List.replicate n 0 ∧
    bicgstab_omega_den (identityOperator n)
        (bicgstab_init_state (identityOperator n) (List.replicate n 0) b) =
      0 := by
  have hB : blas_nrm2sq b ≠ 0 := by
    refine ne_of_gt (nrm2sq_pos ?_)
    rw [hb]
    exact hb0
  have hsp0 : ∀ y, spmv_coo (cooIdentity n) (List.replicate n 0) y =
      List.replicate n 0 :=
    fun y => spmv_coo_identity n _ y (by simp)
  have hspb : ∀ y, spmv_coo (cooIdentity n) b y = b :=
    fun y => spmv_coo_identity n b y hb
  have hr0 : blas_axpby b (List.replicate n 0) 1 (-1) = b := by
    unfold blas_axpby
    rw [zipWith_replicate_right_eq _ _ b n hb]
    have hcongr : ∀ a ∈ b, ((1 : ℚ) * a + (-1) * 0) = ((fun y => y) a) := by
      intro a _
      ring
    rw [List.map_congr_left hcongr, List.map_id']
  have hS : bicgstab_init_state (identityOperator n) (List.replicate n 0) b =
      { x := List.replicate n 0, r := b, p := b, r_star := b,
        s := List.replicate n 0, Mp := List.replicate n 0,
        AMp := List.replicate n 0, Ms := List.replicate n 0,
        AMs := List.replicate n 0, r_r_star_old := blas_nrm2sq b,
        r_norm_sq := blas_nrm2sq b } := by
    simp only [bicgstab_init_state, identityOperator, blas_copy]
    rw [hsp0, hr0, dotc_self]
  have hAMp : bicgstab_AMp (identityOperator n)
      (bicgstab_init_state (identityOperator n) (List.replicate n 0) b) =
      b := by
    unfold bicgstab_AMp bicgstab_Mp
    rw [hS]
    simp only [blas_copy, identityOperator]
    exact hspb _
  have hden : bicgstab_alpha_den (identityOperator n)
      (bicgstab_init_state (identityOperator n) (List.replicate n 0) b) =
      blas_nrm2sq b := by
    unfold bicgstab_alpha_den
    rw [hAMp, hS]
    exact dotc_self b
  have halpha : bicgstab_alpha (identityOperator n)
      (bicgstab_init_state (identityOperator n) (List.replicate n 0) b) =
      1 := by
    unfold bicgstab_alpha
    rw [hden, hS]
    exact div_self hB
  have hs : bicgstab_s (identityOperator n)
      (bicgstab_init_state (identityOperator n) (List.replicate n 0) b) =
      List.replicate n 0 := by
    unfold bicgstab_s
    rw [hAMp, halpha, hS]
    show blas_axpby b b 1 (-1) = List.replicate n 0
    unfold blas_axpby
    rw [zipWith_self_eq]
    have hcongr : ∀ a ∈ b, ((1 : ℚ) * a + (-1) * a) = ((fun _ => (0 : ℚ)) a) := by
      intro a _
      ring
    rw [List.map_congr_left hcongr, List.map_const', hb]
  have hAMs : bicgstab_AMs (identityOperator n)
      (bicgstab_init_state (identityOperator n) (List.replicate n 0) b) =
      List.replicate n 0 := by
    unfold bicgstab_AMs bicgstab_Ms
    rw [hs]
    simp only [blas_copy, identityOperator]
    exact hsp0 _
  have homega : bicgstab_omega_den (identityOperator n)
      (bicgstab_init_state (identityOperator n) (List.replicate n 0) b) =
      0 := by
    unfold bicgstab_omega_den
    rw [hAMs]
    exact dotc_replicate_zero_left n _
  exact ⟨hden, hB, halpha, hs, homega⟩

/-- Witness for C4 (amended) at the spec's seed test `b = (1,2,3)` on the
3 × 3 identity. -/
theorem bicgstab_identity_first_iteration_breakdown_witness :
    ([1, 2, 3] : List ℚ).length = 3 ∧
    ([1, 2, 3] : List ℚ) ≠ List.replicate 3 0 ∧
    (bicgstab_alpha_den (identityOperator 3)
        (bicgstab_init_state (identityOperator 3) (List.replicate 3 0)
          [1, 2, 3]) = blas_nrm2sq [1, 2, 3] ∧
      blas_nrm2sq ([1, 2, 3] : List ℚ) ≠ 0 ∧
      bicgstab_alpha (identityOperator 3)
        (bicgstab_init_state (identityOperator 3) (List.replicate 3 0)
          [1, 2, 3]) = 1 ∧
      bicgstab_s (identityOperator 3)
        (bicgstab_init_state (identityOperator 3) (List.replicate 3 0)
          [1, 2, 3]) = List.replicate 3 0 ∧
      bicgstab_omega_den (identityOperator 3)
        (bicgstab_init_state (identityOperator 3) (List.replicate 3 0)
          [1, 2, 3]) = 0) := by
  have hb0 : ([1, 2, 3] : List ℚ) ≠ List.replicate 3 0 := by
    intro h
    have := congrArg (fun l => l.getD 0 0) h
    norm_num [List.replicate] at this
  exact ⟨rfl, hb0,
    bicgstab_identity_first_iteration_breakdown 3 [1, 2, 3] rfl hb0⟩
